import Mathlib

/-!
# Verification of `src/mongo/db/query/projection_ast.h`

A shallow embedding of the projection AST node hierarchy
(`mongo::projection_ast`) and proofs of its specified properties.

The file has two complementary embeddings of the same source:

* a *pure tree* model (`ASTNode` as an inductive type), used for the
  value-level properties: constructor invariants, `getChild` lookup,
  clone shape preservation, expression clone via serialize/re-parse,
  and visitor dispatch;
* a *store* model (`Store`: nodes addressed by numeric ids, with
  explicit `parent` back-pointers and `children` id vectors), used for
  the pointer-identity properties: parent/child consistency, clone
  freshness and independence, and root-ness of clone results.

Types that belong to external collaborators of this header
(`MatchExpression`, `Expression`, `BSONObj`) are modelled from the
spec, as marked in their doc comments.
-/

namespace ProjectionAST

/-! ## External collaborator models -/

/-- Modelled from the spec: the immutable backing buffer ("the
immutable serialized document bytes that a predicate tree's nodes
reference rather than copy").  `BSONObj` here is the byte content of
such a buffer. -/
abbrev BSONObj : Type := List UInt8

/-- Modelled from the spec: a match-expression predicate tree whose
internal nodes "hold references into the bytes of the originating
buffer (for literal values, field-name strings, etc.)".  References
are byte offsets into the backing buffer. -/
inductive MatchExpr where
  | pred (fieldNameRef : Nat) (valueRef : Nat)
  | andE (l : MatchExpr) (r : MatchExpr)
deriving DecidableEq, Repr

/-- Modelled from the spec: `MatchExpression::shallowClone` copies the
predicate-tree nodes while "preserving its references into that
buffer". -/
def MatchExpr.shallowClone : MatchExpr → MatchExpr
  | .pred f v => .pred f v
  | .andE l r => .andE l.shallowClone r.shallowClone

/-- Modelled from the spec: the computed-expression sub-language that
an `ExpressionASTNode` holds — here constants and variable
references. -/
inductive ExprBody where
  | constE (n : Int)
  | varE (v : Nat)
deriving DecidableEq, Repr

/-- Modelled from the spec: an `Expression` handle carries "the parse
context it was built under" (the expression context with its
`variablesParseState`), here a numeric context id, together with the
expression body. -/
structure ExprHandle where
  ctx : Nat
  body : ExprBody
deriving DecidableEq, Repr

/-- Modelled from the spec: the external (document) value form that
`Expression::serialize` produces and `Expression::parseOperand`
consumes. -/
inductive DocVal where
  | int (n : Int)
  | str (s : String)
  | obj (fields : List (String × DocVal))

/-- Modelled from the spec: `BSONObjBuilder bob; bob << "" << v` builds
a one-field document with empty field name, whose `firstElement` is
`v` again. -/
def mkSingleFieldObj (v : DocVal) : DocVal := .obj [("", v)]

/-- `firstElement` of a document value: its first field's value. -/
def firstElement : DocVal → Option DocVal
  | .obj ((_, v) :: _) => some v
  | _ => none

/-! ## Pure tree model of the node hierarchy -/

/-- `MatchExpressionASTNode` state: the retained backing `BSONObj`
(the source comment: "Must carry the BSON around as well since
_matchExpr maintains pointers into it") and the owned predicate
tree. -/
structure MatchExpressionASTNode where
  bson : BSONObj
  matchExpr : MatchExpr
deriving DecidableEq

/-- The closed set of concrete node kinds of `projection_ast`, as a
pure tree.  Children are stored per variant exactly where the C++
classes keep them: `path` keeps an ordered child list in lockstep with
`fieldNames`; `positional` and `elemMatch` keep the single
`MatchExpressionASTNode` child their constructors enforce (in C++ via
the `std::unique_ptr<MatchExpressionASTNode>` parameter type); the
remaining kinds are leaves. -/
inductive ASTNode where
  | matchExpression (m : MatchExpressionASTNode)
  | path (fieldNames : List String) (childVec : List ASTNode)
  | positional (child : MatchExpressionASTNode)
  | slice (skip : Option Int) (limit : Int)
  | elemMatch (child : MatchExpressionASTNode)
  | expression (e : ExprHandle)
  | booleanConstant (val : Bool)

/-- `ASTNode::children()`: the ordered child vector.  `positional`
and `elemMatch` hold their single match-expression child in the
inherited `_children` vector. -/
def ASTNode.children : ASTNode → List ASTNode
  | .matchExpression _ => []
  | .path _ cs => cs
  | .positional c => [.matchExpression c]
  | .slice _ _ => []
  | .elemMatch c => [.matchExpression c]
  | .expression _ => []
  | .booleanConstant _ => []

/-- `ProjectionPathASTNode::ProjectionPathASTNode(children, fieldNames)`:
the constructor runs `invariant(_children.size() == _fieldNames.size())`;
a failed `invariant` is a fatal abort, modelled as `none`. -/
def ProjectionPathASTNode.construct (children : List ASTNode)
    (fieldNames : List String) : Option ASTNode :=
  if children.length = fieldNames.length then
    some (.path fieldNames children)
  else
    none

/-- The loop body of `ProjectionPathASTNode::getChild`: scan
`_fieldNames` in order; on the first index whose name equals
`fieldName`, return the child at the same index of `_children`. -/
def getChildScan (fieldName : String) :
    List String → List ASTNode → Option ASTNode
  | [], _ => none
  | f :: fs, cs =>
    if f = fieldName then cs.head?
    else getChildScan fieldName fs (cs.drop 1)

/-- `ProjectionPathASTNode::getChild(fieldName)` on a path node (the
only kind that has it); on other kinds it is not callable, modelled as
`none`. -/
def ASTNode.getChild (n : ASTNode) (fieldName : String) : Option ASTNode :=
  match n with
  | .path fs cs => getChildScan fieldName fs cs
  | _ => none

/-- `ProjectionPathASTNode::addChild(fieldName, node)`: push the child
onto `_children` (via `addChildToInternalVector`) and the name onto
`_fieldNames`. -/
def ASTNode.addChild (n : ASTNode) (fieldName : String)
    (node : ASTNode) : ASTNode :=
  match n with
  | .path fs cs => .path (fs ++ [fieldName]) (cs ++ [node])
  | other => other

/-- `ProjectionPositionalASTNode::ProjectionPositionalASTNode(child)`:
the parameter type `std::unique_ptr<MatchExpressionASTNode>` admits
exactly one match-expression child; `invariant(child)` aborts on a
null pointer, modelled as `none` on `none`. -/
def ProjectionPositionalASTNode.construct
    (child : Option MatchExpressionASTNode) : Option ASTNode :=
  match child with
  | none => none
  | some c => some (.positional c)

/-- `ProjectionElemMatchASTNode::ProjectionElemMatchASTNode(child)`:
same contract as the positional constructor. -/
def ProjectionElemMatchASTNode.construct
    (child : Option MatchExpressionASTNode) : Option ASTNode :=
  match child with
  | none => none
  | some c => some (.elemMatch c)

/-- `ProjectionSliceASTNode::ProjectionSliceASTNode(skip, limit)`. -/
def ProjectionSliceASTNode.construct (skip : Option Int) (limit : Int) :
    ASTNode :=
  .slice skip limit

/-- `BooleanConstantASTNode::BooleanConstantASTNode(val)`. -/
def BooleanConstantASTNode.construct (val : Bool) : ASTNode :=
  .booleanConstant val

/-- `ProjectionSliceASTNode::limit()`. -/
def ASTNode.limit : ASTNode → Option Int
  | .slice _ l => some l
  | _ => none

/-- `ProjectionSliceASTNode::skip()`. -/
def ASTNode.skip : ASTNode → Option (Option Int)
  | .slice sk _ => some sk
  | _ => none

/-- `BooleanConstantASTNode::value()`. -/
def ASTNode.value : ASTNode → Option Bool
  | .booleanConstant b => some b
  | _ => none

/-- `ProjectionPathASTNode::fieldNames()`. -/
def ASTNode.fieldNames : ASTNode → Option (List String)
  | .path fs _ => some fs
  | _ => none

section CloneEngine

-- `ser` is `Expression::serialize(false)`, supplied by the external
-- computed-expression sub-language.
variable (ser : ExprBody → DocVal)

-- `par` is `Expression::parseOperand(expCtx, elem, variablesParseState)`,
-- supplied by the external computed-expression sub-language; the `Nat`
-- argument stands for the parse context (`getExpressionContext()`
-- together with its `variablesParseState`), and a thrown recoverable
-- exception is modelled as `Except.error`.
variable (par : Nat → DocVal → Except String ExprBody)

/-- `ExpressionASTNode::ExpressionASTNode(const ExpressionASTNode&)`:
serialize the original expression, wrap it as the single anonymous
field of a fresh `BSONObjBuilder` object, and re-parse that object's
`firstElement` with `parseOperand` under the original expression's own
parse context. -/
def ExpressionASTNode.cloneExpr (e : ExprHandle) : Except String ExprHandle :=
  match firstElement (mkSingleFieldObj (ser e.body)) with
  | some elem => (par e.ctx elem).map fun b => ⟨e.ctx, b⟩
  | none => .error "empty builder object"

mutual

/-- `ASTNode::clone()` as implemented by the per-variant copy
constructors: `MatchExpressionASTNode` keeps the `BSONObj` handle and
`shallowClone`s the match expression; `ProjectionPathASTNode` copies
the field names and recursively clones the child vector (base-class
copy constructor); positional/elemMatch recursively clone their single
match-expression child; slice and boolean leaves copy their scalars;
`ExpressionASTNode` re-parses the serialized expression, whose failure
propagates as `Except.error`. -/
def ASTNode.clone : ASTNode → Except String ASTNode
  | .matchExpression m =>
    .ok (.matchExpression ⟨m.bson, m.matchExpr.shallowClone⟩)
  | .path fs cs => (cloneChildVec cs).map fun cs2 => .path fs cs2
  | .positional c => .ok (.positional ⟨c.bson, c.matchExpr.shallowClone⟩)
  | .slice sk l => .ok (.slice sk l)
  | .elemMatch c => .ok (.elemMatch ⟨c.bson, c.matchExpr.shallowClone⟩)
  | .expression e => (ExpressionASTNode.cloneExpr ser par e).map .expression
  | .booleanConstant b => .ok (.booleanConstant b)

/-- The loop of `ASTNode::ASTNode(const ASTNode&)`: clone each child
in order (`addChildToInternalVector(child->clone())`); the first
failure propagates. -/
def cloneChildVec : List ASTNode → Except String (List ASTNode)
  | [] => .ok []
  | c :: cs =>
    match ASTNode.clone c, cloneChildVec cs with
    | .ok c2, .ok cs2 => .ok (c2 :: cs2)
    | .error msg, _ => .error msg
    | .ok _, .error msg => .error msg

end

end CloneEngine

mutual

/-- Specification-level shape equality: same node kinds, same child
counts in the same order (recursively), equal field-name lists on path
nodes, equal scalar state on slice and boolean nodes. -/
def sameShape : ASTNode → ASTNode → Bool
  | .matchExpression _, .matchExpression _ => true
  | .path fs cs, .path fs2 cs2 => fs == fs2 && sameShapeVec cs cs2
  | .positional _, .positional _ => true
  | .slice sk l, .slice sk2 l2 => sk == sk2 && l == l2
  | .elemMatch _, .elemMatch _ => true
  | .expression _, .expression _ => true
  | .booleanConstant b, .booleanConstant b2 => b == b2
  | _, _ => false

/-- Pointwise `sameShape` on child vectors (implies equal counts). -/
def sameShapeVec : List ASTNode → List ASTNode → Bool
  | [], [] => true
  | c :: cs, c2 :: cs2 => sameShape c c2 && sameShapeVec cs cs2
  | _, _ => false

end

/-- Modelled from the spec: a concrete instance of the external
computed-expression serializer (`Expression::serialize`), mapping each
expression constructor to its external document form. -/
def serializeBody : ExprBody → DocVal
  | .constE n => .int n
  | .varE v => .obj [("$var", .int (Int.ofNat v))]

/-- Modelled from the spec: a concrete instance of the external
`Expression::parseOperand`, where the parse context determines the
variable-resolution scope (variables `0 .. ctx-1` are in scope) and a
failed parse is a recoverable error. -/
def parseOperandM : Nat → DocVal → Except String ExprBody
  | _, .int n => .ok (.constE n)
  | ctx, .obj (("$var", .int v) :: []) =>
    if 0 ≤ v ∧ v.toNat < ctx then .ok (.varE v.toNat)
    else .error "undefined variable"
  | _, _ => .error "unrecognized expression"

/-- A sample tree, the spec's concrete scenario: a path node with
field names `a`, `b`, a boolean-constant child and a slice child. -/
def sampleTree : ASTNode :=
  .path ["a", "b"] [.booleanConstant true, .slice (some 2) 5]

end ProjectionAST

namespace ProjectionAST

/-! ## Claim C3: clone preserves shape -/

mutual

theorem clone_sameShape_aux (ser : ExprBody → DocVal)
    (par : Nat → DocVal → Except String ExprBody) :
    ∀ (T T' : ASTNode), ASTNode.clone ser par T = .ok T' →
      sameShape T T' = true
  | .matchExpression m, T', h => by
    simp only [ASTNode.clone, Except.ok.injEq] at h
    subst h; rfl
  | .path fs cs, T', h => by
    simp only [ASTNode.clone] at h
    cases hv : cloneChildVec ser par cs with
    | error msg => rw [hv] at h; cases h
    | ok cs2 =>
      rw [hv] at h
      simp only [Except.map, Except.ok.injEq] at h
      subst h
      have hrec := cloneChildVec_sameShape_aux ser par cs cs2 hv
      simp [sameShape, hrec]
  | .positional c, T', h => by
    simp only [ASTNode.clone, Except.ok.injEq] at h
    subst h; rfl
  | .slice sk l, T', h => by
    simp only [ASTNode.clone, Except.ok.injEq] at h
    subst h; simp [sameShape]
  | .elemMatch c, T', h => by
    simp only [ASTNode.clone, Except.ok.injEq] at h
    subst h; rfl
  | .expression e, T', h => by
    simp only [ASTNode.clone] at h
    cases hv : ExpressionASTNode.cloneExpr ser par e with
    | error msg => rw [hv] at h; cases h
    | ok e2 =>
      rw [hv] at h
      simp only [Except.map, Except.ok.injEq] at h
      subst h; rfl
  | .booleanConstant b, T', h => by
    simp only [ASTNode.clone, Except.ok.injEq] at h
    subst h; simp [sameShape]

theorem cloneChildVec_sameShape_aux (ser : ExprBody → DocVal)
    (par : Nat → DocVal → Except String ExprBody) :
    ∀ (cs cs' : List ASTNode), cloneChildVec ser par cs = .ok cs' →
      sameShapeVec cs cs' = true
  | [], cs', h => by
    simp only [cloneChildVec, Except.ok.injEq] at h
    subst h; rfl
  | c :: cs, cs', h => by
    simp only [cloneChildVec] at h
    cases hc : ASTNode.clone ser par c with
    | error msg => rw [hc] at h; simp at h
    | ok c2 =>
      rw [hc] at h
      cases hcs : cloneChildVec ser par cs with
      | error msg => rw [hcs] at h; simp at h
      | ok cs2 =>
        rw [hcs] at h
        simp only [Except.ok.injEq] at h
        subst h
        have h1 := clone_sameShape_aux ser par c c2 hc
        have h2 := cloneChildVec_sameShape_aux ser par cs cs2 hcs
        simp [sameShapeVec, h1, h2]

end

/-- C3: for every tree `T`, a successful `clone(T)` has the same
shape as `T` recursively — the same node kinds, the same child counts
in the same order, equal field-name lists on every path node, and
equal scalar values (slice limit and skip, boolean literal). -/
theorem clone_preserves_shape (ser : ExprBody → DocVal)
    (par : Nat → DocVal → Except String ExprBody) (T T' : ASTNode)
    (h : ASTNode.clone ser par T = .ok T') : sameShape T T' = true :=
  clone_sameShape_aux ser par T T' h

/-- Witness for C3 on the spec's concrete scenario tree. -/
theorem clone_preserves_shape_witness :
    ASTNode.clone serializeBody parseOperandM sampleTree = .ok sampleTree ∧
      sameShape sampleTree sampleTree = true :=
  ⟨rfl, clone_preserves_shape serializeBody parseOperandM
    sampleTree sampleTree rfl⟩

/-! ## Claim C6: expression clone is serialize-then-reparse -/

/-- C6: cloning an `ExpressionASTNode` re-parses the serialized form
of the original expression under the original expression's own parse
context (first conjunct: the clone computation is exactly
`parseOperand` of the serialized body under `e.ctx`, rebuilt into a
handle with the same context); consequently, whenever `parseOperand`
inverts `serialize` on this expression, the cloned expression equals
the original (second conjunct). -/
theorem expression_clone_serialize_reparse (ser : ExprBody → DocVal)
    (par : Nat → DocVal → Except String ExprBody) (e : ExprHandle) :
    (ExpressionASTNode.cloneExpr ser par e =
      (par e.ctx (ser e.body)).map fun b => ⟨e.ctx, b⟩) ∧
    (par e.ctx (ser e.body) = .ok e.body →
      ExpressionASTNode.cloneExpr ser par e = .ok e) := by
  constructor
  · rfl
  · intro h
    show (par e.ctx (ser e.body)).map (fun b => (⟨e.ctx, b⟩ : ExprHandle))
      = .ok e
    rw [h]
    rfl

/-- Witness for C6: a variable reference in scope round-trips and its
clone is the original handle. -/
theorem expression_clone_serialize_reparse_witness :
    ExpressionASTNode.cloneExpr serializeBody parseOperandM ⟨2, .varE 1⟩ =
      .ok ⟨2, .varE 1⟩ :=
  (expression_clone_serialize_reparse serializeBody parseOperandM
    ⟨2, .varE 1⟩).2 rfl

/-! ## Claim C7: re-parse failure is a recoverable clone failure -/

/-- C7: when the re-parse step of an expression clone fails, the
failure surfaces to the caller as the same inspectable
`Except.error` value — a distinguishable, recoverable clone failure —
rather than the unconditional abort (`Option.none` in this model's
`invariant` encoding) used for structural-invariant violations. -/
theorem expression_clone_failure_surfaces (ser : ExprBody → DocVal)
    (par : Nat → DocVal → Except String ExprBody) (e : ExprHandle)
    (msg : String) (h : par e.ctx (ser e.body) = .error msg) :
    ExpressionASTNode.cloneExpr ser par e = .error msg := by
  show (par e.ctx (ser e.body)).map (fun b => (⟨e.ctx, b⟩ : ExprHandle))
    = .error msg
  rw [h]
  rfl

/-- Witness for C7: a variable reference out of scope fails to
re-parse and the clone reports that same error. -/
theorem expression_clone_failure_surfaces_witness :
    parseOperandM 0 (serializeBody (.varE 1)) = .error "undefined variable" ∧
    ExpressionASTNode.cloneExpr serializeBody parseOperandM ⟨0, .varE 1⟩ =
      .error "undefined variable" :=
  ⟨rfl, expression_clone_failure_surfaces serializeBody parseOperandM
    ⟨0, .varE 1⟩ "undefined variable" rfl⟩

/-! ## Claim C8: visitor double dispatch -/

/-- `ProjectionASTVisitor`: one operation per concrete node kind, each
receiving the visited node's concrete state (the C++ overload set
`visit(MatchExpressionASTNode*)`, `visit(ProjectionPathASTNode*)`,
...). -/
structure ProjectionASTVisitor (α : Type) where
  visitMatchExpression : MatchExpressionASTNode → α
  visitProjectionPath : List String → List ASTNode → α
  visitProjectionPositional : MatchExpressionASTNode → α
  visitProjectionSlice : Option Int → Int → α
  visitProjectionElemMatch : MatchExpressionASTNode → α
  visitExpression : ExprHandle → α
  visitBooleanConstant : Bool → α

/-- Each concrete class's `acceptVisitor(visitor)` body is the single
call `visitor->visit(this)`, resolved to the overload of that class's
own static type. -/
def ASTNode.acceptVisitor : ASTNode → {α : Type} → ProjectionASTVisitor α → α
  | .matchExpression m, _, v => v.visitMatchExpression m
  | .path fs cs, _, v => v.visitProjectionPath fs cs
  | .positional c, _, v => v.visitProjectionPositional c
  | .slice sk l, _, v => v.visitProjectionSlice sk l
  | .elemMatch c, _, v => v.visitProjectionElemMatch c
  | .expression e, _, v => v.visitExpression e
  | .booleanConstant b, _, v => v.visitBooleanConstant b

/-- The seven concrete node kinds, as tags for observing dispatch. -/
inductive VisitKind where
  | matchExpression
  | path
  | positional
  | slice
  | elemMatch
  | expression
  | booleanConstant
deriving DecidableEq, Repr

/-- The kind tag of a node. -/
def ASTNode.kind : ASTNode → VisitKind
  | .matchExpression _ => .matchExpression
  | .path _ _ => .path
  | .positional _ => .positional
  | .slice _ _ => .slice
  | .elemMatch _ => .elemMatch
  | .expression _ => .expression
  | .booleanConstant _ => .booleanConstant

/-- An instrumented visitor whose every operation records which
operation was invoked and the (reassembled) node it was handed. -/
def traceVisitor : ProjectionASTVisitor (List (VisitKind × ASTNode)) where
  visitMatchExpression m := [(.matchExpression, .matchExpression m)]
  visitProjectionPath fs cs := [(.path, .path fs cs)]
  visitProjectionPositional c := [(.positional, .positional c)]
  visitProjectionSlice sk l := [(.slice, .slice sk l)]
  visitProjectionElemMatch c := [(.elemMatch, .elemMatch c)]
  visitExpression e := [(.expression, .expression e)]
  visitBooleanConstant b := [(.booleanConstant, .booleanConstant b)]

/-- C8: for every node of each of the 7 concrete kinds, one
`acceptVisitor` invocation performs exactly one visitor call, to the
operation declared for that node's own kind, passing the node itself —
observed through an instrumented visitor that logs every operation
call. -/
theorem acceptVisitor_dispatches_exactly_own_kind (n : ASTNode) :
    n.acceptVisitor traceVisitor = [(n.kind, n)] := by
  cases n <;> rfl

/-! ## Claim C5: match-expression clone shares the immutable buffer -/

/-- A store of backing buffers, addressed by handle: models which
`BSONObj` byte buffers exist and lets buffer identity (sharing versus
re-allocation) be observed. -/
structure BufStore where
  bufs : List (Nat × BSONObj)
  nextBuf : Nat

/-- Dereference a buffer handle. -/
def BufStore.lookup (bs : BufStore) (i : Nat) : Option BSONObj :=
  (bs.bufs.find? fun p => p.1 = i).map fun p => p.2

/-- Allocate a fresh buffer holding the given bytes. -/
def BufStore.alloc (bs : BufStore) (b : BSONObj) : BufStore × Nat :=
  (⟨(bs.nextBuf, b) :: bs.bufs, bs.nextBuf + 1⟩, bs.nextBuf)

/-- A `MatchExpressionASTNode` at the buffer-identity level: the
`_bson` member is a handle to a buffer in the store, and `_matchExpr`
references into that buffer. -/
structure MatchExpressionASTNodeH where
  bsonId : Nat
  matchExpr : MatchExpr

/-- `MatchExpressionASTNode::MatchExpressionASTNode(const MatchExpressionASTNode&)`:
copy the `_bson` handle (`_bson(other._bson)` — the same underlying
bytes, nothing re-serialized, no new buffer allocated) and
`shallowClone` the match expression. -/
def MatchExpressionASTNodeH.cloneImpl (bs : BufStore)
    (m : MatchExpressionASTNodeH) : BufStore × MatchExpressionASTNodeH :=
  (bs, ⟨m.bsonId, m.matchExpr.shallowClone⟩)

/-- Modelled from the spec: a structural deep copy of the predicate
tree, re-creating every node (references are offsets, unchanged when
the target buffer holds the same bytes). -/
def MatchExpr.deepCopy : MatchExpr → MatchExpr
  | .pred f v => .pred f v
  | .andE l r => .andE l.deepCopy r.deepCopy

/-- Modelled from the spec: a *true deep clone* of a
`MatchExpressionASTNode` — allocate a fresh buffer with a copy of the
original's bytes and deep-copy the predicate tree with its references
pointing into that fresh buffer. -/
def MatchExpressionASTNodeH.cloneDeepSpec (bs : BufStore)
    (m : MatchExpressionASTNodeH) : BufStore × MatchExpressionASTNodeH :=
  match bs.lookup m.bsonId with
  | some bytes =>
    match bs.alloc bytes with
    | (bs2, newId) => (bs2, ⟨newId, m.matchExpr.deepCopy⟩)
  | none => (bs, ⟨m.bsonId, m.matchExpr.deepCopy⟩)

/-- What an external observer can extract from one predicate node: the
bytes its references resolve to. -/
inductive ObsTree where
  | pred (fieldNameByte : Option UInt8) (valueByte : Option UInt8)
  | andE (l : ObsTree) (r : ObsTree)
deriving DecidableEq, Repr

/-- Resolve every reference of a predicate tree against a buffer. -/
def MatchExpr.observe (buf : BSONObj) : MatchExpr → ObsTree
  | .pred f v => .pred (buf[f]?) (buf[v]?)
  | .andE l r => .andE (l.observe buf) (r.observe buf)

/-- Everything an external observer can read from a
match-expression node: its predicate tree resolved through its
buffer. -/
def MatchExpressionASTNodeH.observe (bs : BufStore)
    (m : MatchExpressionASTNodeH) : Option ObsTree :=
  (bs.lookup m.bsonId).map fun buf => m.matchExpr.observe buf

theorem shallowClone_observe (buf : BSONObj) :
    ∀ e : MatchExpr, e.shallowClone.observe buf = e.observe buf := by
  intro e
  induction e with
  | pred f v => rfl
  | andE l r ihl ihr => simp [MatchExpr.shallowClone, MatchExpr.observe, ihl, ihr]

theorem deepCopy_observe (buf : BSONObj) :
    ∀ e : MatchExpr, e.deepCopy.observe buf = e.observe buf := by
  intro e
  induction e with
  | pred f v => rfl
  | andE l r ihl ihr => simp [MatchExpr.deepCopy, MatchExpr.observe, ihl, ihr]

/-- C5: cloning a `MatchExpressionASTNode` keeps a handle to the same
buffer and allocates no new one (the bytes are shared, not
re-serialized), shallow-clones the predicate tree preserving its
references, and — for a node whose buffer exists — is observationally
equal to the spec's true deep clone: every byte an observer resolves
through the clone equals what the deep clone resolves, which equals
what the original resolves. -/
theorem matchExpression_clone_buffer_sharing_refines_deep_clone
    (bs : BufStore) (m : MatchExpressionASTNodeH) (buf : BSONObj)
    (h : bs.lookup m.bsonId = some buf) :
    ((MatchExpressionASTNodeH.cloneImpl bs m).2.bsonId = m.bsonId ∧
      (MatchExpressionASTNodeH.cloneImpl bs m).1 = bs) ∧
    (MatchExpressionASTNodeH.cloneImpl bs m).2.matchExpr
      = m.matchExpr.shallowClone ∧
    (MatchExpressionASTNodeH.observe (MatchExpressionASTNodeH.cloneImpl bs m).1
        (MatchExpressionASTNodeH.cloneImpl bs m).2
      = MatchExpressionASTNodeH.observe
          (MatchExpressionASTNodeH.cloneDeepSpec bs m).1
          (MatchExpressionASTNodeH.cloneDeepSpec bs m).2 ∧
     MatchExpressionASTNodeH.observe (MatchExpressionASTNodeH.cloneImpl bs m).1
        (MatchExpressionASTNodeH.cloneImpl bs m).2
      = MatchExpressionASTNodeH.observe bs m) := by
  refine ⟨⟨rfl, rfl⟩, rfl, ?_, ?_⟩
  · simp only [MatchExpressionASTNodeH.cloneImpl,
      MatchExpressionASTNodeH.cloneDeepSpec, h, BufStore.alloc]
    simp only [MatchExpressionASTNodeH.observe, h]
    have hnew : (BufStore.mk ((bs.nextBuf, buf) :: bs.bufs)
        (bs.nextBuf + 1)).lookup bs.nextBuf = some buf := by
      simp [BufStore.lookup, List.find?]
    rw [hnew]
    simp [shallowClone_observe, deepCopy_observe]
  · simp only [MatchExpressionASTNodeH.cloneImpl,
      MatchExpressionASTNodeH.observe, h]
    simp [shallowClone_observe]

/-- Witness for C5: a two-byte buffer with a one-predicate tree. -/
theorem matchExpression_clone_buffer_sharing_refines_deep_clone_witness :
    ((MatchExpressionASTNodeH.cloneImpl ⟨[(0, [7, 8])], 1⟩
        ⟨0, .pred 0 1⟩).2.bsonId = 0 ∧
      (MatchExpressionASTNodeH.cloneImpl ⟨[(0, [7, 8])], 1⟩
        ⟨0, .pred 0 1⟩).1 = ⟨[(0, [7, 8])], 1⟩) ∧
    (MatchExpressionASTNodeH.cloneImpl ⟨[(0, [7, 8])], 1⟩
        ⟨0, .pred 0 1⟩).2.matchExpr = MatchExpr.shallowClone (.pred 0 1) ∧
    (MatchExpressionASTNodeH.observe
        (MatchExpressionASTNodeH.cloneImpl ⟨[(0, [7, 8])], 1⟩
          ⟨0, .pred 0 1⟩).1
        (MatchExpressionASTNodeH.cloneImpl ⟨[(0, [7, 8])], 1⟩
          ⟨0, .pred 0 1⟩).2
      = MatchExpressionASTNodeH.observe
          (MatchExpressionASTNodeH.cloneDeepSpec ⟨[(0, [7, 8])], 1⟩
            ⟨0, .pred 0 1⟩).1
          (MatchExpressionASTNodeH.cloneDeepSpec ⟨[(0, [7, 8])], 1⟩
            ⟨0, .pred 0 1⟩).2 ∧
     MatchExpressionASTNodeH.observe
        (MatchExpressionASTNodeH.cloneImpl ⟨[(0, [7, 8])], 1⟩
          ⟨0, .pred 0 1⟩).1
        (MatchExpressionASTNodeH.cloneImpl ⟨[(0, [7, 8])], 1⟩
          ⟨0, .pred 0 1⟩).2
      = MatchExpressionASTNodeH.observe ⟨[(0, [7, 8])], 1⟩
          ⟨0, .pred 0 1⟩) :=
  matchExpression_clone_buffer_sharing_refines_deep_clone
    ⟨[(0, [7, 8])], 1⟩ ⟨0, .pred 0 1⟩ [7, 8] rfl

/-! ## Store model: nodes addressed by ids, explicit parent pointers

The pointer-identity properties of the source (`_parent` back-links
maintained by the `ASTNode` child-vector constructor,
`addChildToInternalVector`, and the copy constructor) are stated over
an explicit store of node cells. -/

/-- The per-variant immutable state of a node, apart from the
base-class `_children` / `_parent` members. -/
inductive NodeData where
  | matchExpression (m : MatchExpressionASTNode)
  | path (fieldNames : List String)
  | positional
  | slice (skip : Option Int) (limit : Int)
  | elemMatch
  | expression (e : ExprHandle)
  | booleanConstant (b : Bool)
deriving DecidableEq

/-- One allocated `ASTNode` object: its variant state, its `_parent`
pointer (`none` iff root) and its `_children` vector of owned node
ids. -/
structure NodeCell where
  data : NodeData
  parent : Option Nat
  children : List Nat
deriving DecidableEq

/-- The set of allocated nodes; `nextId` is the allocation frontier
(every live id is below it). -/
structure Store where
  cells : List (Nat × NodeCell)
  nextId : Nat
deriving DecidableEq

/-- Dereference an id in a cell list (first entry wins). -/
def findCell (cells : List (Nat × NodeCell)) (i : Nat) :
    Option NodeCell :=
  (cells.find? fun p => p.1 = i).map fun p => p.2

/-- Rewrite the cell at an id in place. -/
def updateCell (cells : List (Nat × NodeCell)) (i : Nat)
    (f : NodeCell → NodeCell) : List (Nat × NodeCell) :=
  cells.map fun p => if p.1 = i then (p.1, f p.2) else p

/-- Dereference a node id. -/
def Store.lookup (s : Store) (i : Nat) : Option NodeCell :=
  findCell s.cells i

/-- Rewrite the node at `i` in place. -/
def Store.update (s : Store) (i : Nat) (f : NodeCell → NodeCell) :
    Store :=
  ⟨updateCell s.cells i f, s.nextId⟩

/-- `child->_parent = this` (resp. `= nullptr`). -/
def Store.setParent (s : Store) (c : Nat) (p : Option Nat) : Store :=
  s.update c fun cell => { cell with parent := p }

/-- `ASTNode::ASTNode()` / a leaf-node constructor: allocate a fresh
node with no parent and no children. -/
def Store.constructLeaf (s : Store) (d : NodeData) : Store × Nat :=
  (⟨(s.nextId, ⟨d, none, []⟩) :: s.cells, s.nextId + 1⟩, s.nextId)

/-- `ASTNode::ASTNode(ASTNodeVector children)`: take ownership of the
child vector and set each child's `_parent` to the new node. -/
def Store.constructWithChildren (s : Store) (d : NodeData)
    (childIds : List Nat) : Store × Nat :=
  let id := s.nextId
  let s1 : Store := ⟨(id, ⟨d, none, childIds⟩) :: s.cells, id + 1⟩
  (childIds.foldl (fun acc c => acc.setParent c (some id)) s1, id)

/-- `ASTNode::addChildToInternalVector(node)`: set the child's
`_parent` to the adopting node and push it onto `_children`. -/
def Store.addChildToInternalVector (s : Store) (p c : Nat) : Store :=
  (s.setParent c (some p)).update p fun cell =>
    { cell with children := cell.children ++ [c] }

/-- `ProjectionPathASTNode::addChild(fieldName, node)`:
`addChildToInternalVector` plus pushing the field name. -/
def Store.addChild (s : Store) (p c : Nat) (fieldName : String) :
    Store :=
  (s.addChildToInternalVector p c).update p fun cell =>
    { cell with data :=
        match cell.data with
        | .path fs => .path (fs ++ [fieldName])
        | d => d }

mutual

/-- `ASTNode::ASTNode(const ASTNode&)` / `clone()` over the store:
allocate a copy of the node with `_parent = nullptr` and no children
yet, then clone each child in order and adopt it via
`addChildToInternalVector`.  The fuel argument is a modelling bound on
recursion depth (the C++ recursion terminates because trees are
acyclic); `none` means the fuel ran out or the id is dangling. -/
def Store.cloneNode : Nat → Store → Nat → Option (Store × Nat)
  | 0, _, _ => none
  | fuel + 1, s, i =>
    match s.lookup i with
    | none => none
    | some cell =>
      match Store.cloneChildren fuel
        ⟨(s.nextId, ⟨cell.data, none, []⟩) :: s.cells, s.nextId + 1⟩
        s.nextId cell.children with
      | none => none
      | some s2 => some (s2, s.nextId)
termination_by fuel => (fuel, 0)

/-- The child loop of the copy constructor:
`for child in other.children: addChildToInternalVector(child->clone())`. -/
def Store.cloneChildren : Nat → Store → Nat → List Nat → Option Store
  | _, s, _, [] => some s
  | fuel, s, parentId, c :: cs =>
    match Store.cloneNode fuel s c with
    | none => none
    | some (s2, c2) =>
      Store.cloneChildren fuel (s2.addChildToInternalVector parentId c2)
        parentId cs
termination_by fuel _ _ cs => (fuel, cs.length + 1)

end

/-- `ASTNode::children()` of a node id. -/
def Store.childrenOf (s : Store) (i : Nat) : Option (List Nat) :=
  (s.lookup i).map fun cell => cell.children

/-- `ASTNode::parent()` of a node id. -/
def Store.parentOf (s : Store) (i : Nat) : Option (Option Nat) :=
  (s.lookup i).map fun cell => cell.parent

/-- `ASTNode::isRoot()` of a node id (`!_parent`). -/
def Store.isRoot (s : Store) (i : Nat) : Option Bool :=
  (s.lookup i).map fun cell => cell.parent.isNone

/-- Membership of a node in the tree rooted at `r`: reflexive closure
of the child relation. -/
inductive Store.reach (s : Store) (r : Nat) : Nat → Prop
  | refl : Store.reach s r r
  | child (j : Nat) (cell : NodeCell) (c : Nat) :
      Store.reach s r j → s.lookup j = some cell → c ∈ cell.children →
      Store.reach s r c

/-- Allocation well-formedness: node keys are unique, every id and
every stored child or parent id is below the allocation frontier, and
children dereference. -/
def Store.WF (s : Store) : Prop :=
  (s.cells.map fun p => p.1).Nodup ∧
  (∀ p ∈ s.cells, p.1 < s.nextId) ∧
  (∀ p ∈ s.cells, ∀ c ∈ p.2.children,
    c < s.nextId ∧ (s.lookup c).isSome = true) ∧
  (∀ p ∈ s.cells, ∀ q ∈ p.2.parent, q < s.nextId)

/-- The parent/child invariant of the spec: every stored child's
`_parent` points back to the node holding it; child vectors have no
duplicates; and every node with a parent appears among that parent's
children. -/
def Store.INV (s : Store) : Prop :=
  (∀ p ∈ s.cells, ∀ c ∈ p.2.children,
    ∃ ccell, s.lookup c = some ccell ∧ ccell.parent = some p.1) ∧
  (∀ p ∈ s.cells, p.2.children.Nodup) ∧
  (∀ p ∈ s.cells, ∀ q ∈ p.2.parent,
    ∃ qcell, s.lookup q = some qcell ∧ p.1 ∈ qcell.children)

/-! ### Basic store lemmas -/

theorem findCell_cons (n : Nat) (cell : NodeCell)
    (cs : List (Nat × NodeCell)) (j : Nat) :
    findCell ((n, cell) :: cs) j
      = if n = j then some cell else findCell cs j := by
  by_cases h : n = j <;> simp [findCell, List.find?, h]

theorem findCell_updateCell (cs : List (Nat × NodeCell)) (i : Nat)
    (f : NodeCell → NodeCell) (j : Nat) :
    findCell (updateCell cs i f) j
      = if j = i then (findCell cs j).map f else findCell cs j := by
  induction cs with
  | nil => by_cases h : j = i <;> simp [findCell, updateCell, h]
  | cons p cs ih =>
    obtain ⟨n, cell⟩ := p
    rw [updateCell, List.map_cons]
    by_cases hn : n = i
    · subst hn
      by_cases hj : j = n
      · subst hj
        simp [findCell_cons]
      · have hj2 : ¬ n = j := fun h => hj h.symm
        rw [updateCell] at ih
        simp [findCell_cons, hj, hj2, ih]
    · by_cases hj : j = n
      · subst hj
        have hji : ¬ j = i := hn
        simp [findCell_cons, hn, hji]
      · have hj2 : ¬ n = j := fun h => hj h.symm
        rw [updateCell] at ih
        simp [findCell_cons, hn, hj2, ih]

theorem lookup_update (s : Store) (i : Nat) (f : NodeCell → NodeCell)
    (j : Nat) :
    (s.update i f).lookup j
      = if j = i then (s.lookup j).map f else s.lookup j :=
  findCell_updateCell s.cells i f j

theorem lookup_update_ne (s : Store) (i : Nat) (f : NodeCell → NodeCell)
    (j : Nat) (h : j ≠ i) : (s.update i f).lookup j = s.lookup j := by
  rw [lookup_update, if_neg h]

theorem lookup_addChildToInternalVector_other (s : Store) (p c j : Nat)
    (hp : j ≠ p) (hc : j ≠ c) :
    (s.addChildToInternalVector p c).lookup j = s.lookup j := by
  rw [Store.addChildToInternalVector, lookup_update_ne _ _ _ _ hp,
    Store.setParent, lookup_update_ne _ _ _ _ hc]

theorem lookup_addChildToInternalVector_parent (s : Store) (p c : Nat)
    (hne : p ≠ c) :
    (s.addChildToInternalVector p c).lookup p
      = (s.lookup p).map fun cell =>
          { cell with children := cell.children ++ [c] } := by
  rw [Store.addChildToInternalVector, lookup_update, if_pos rfl,
    Store.setParent, lookup_update_ne _ _ _ _ hne]

theorem lookup_addChildToInternalVector_child (s : Store) (p c : Nat)
    (hne : c ≠ p) :
    (s.addChildToInternalVector p c).lookup c
      = (s.lookup c).map fun cell => { cell with parent := some p } := by
  rw [Store.addChildToInternalVector, lookup_update_ne _ _ _ _ hne,
    Store.setParent, lookup_update, if_pos rfl]

theorem keys_updateCell (cs : List (Nat × NodeCell)) (i : Nat)
    (f : NodeCell → NodeCell) :
    (updateCell cs i f).map (fun p => p.1) = cs.map fun p => p.1 := by
  induction cs with
  | nil => rfl
  | cons p cs ih =>
    obtain ⟨n, cell⟩ := p
    by_cases hn : n = i <;> simp [updateCell, hn] <;>
      simpa [updateCell] using ih

theorem nextId_update (s : Store) (i : Nat) (f : NodeCell → NodeCell) :
    (s.update i f).nextId = s.nextId := rfl

theorem nextId_addChildToInternalVector (s : Store) (p c : Nat) :
    (s.addChildToInternalVector p c).nextId = s.nextId := rfl

theorem keys_addChildToInternalVector (s : Store) (p c : Nat) :
    (s.addChildToInternalVector p c).cells.map (fun q => q.1)
      = s.cells.map fun q => q.1 := by
  rw [Store.addChildToInternalVector, Store.update, Store.setParent,
    Store.update]
  simp [keys_updateCell]

theorem findCell_eq_some_of_mem (cs : List (Nat × NodeCell))
    (hnd : (cs.map fun p => p.1).Nodup) (i : Nat) (cell : NodeCell)
    (hm : (i, cell) ∈ cs) : findCell cs i = some cell := by
  induction cs with
  | nil => cases hm
  | cons q cs ih =>
    obtain ⟨n, c0⟩ := q
    rw [List.map_cons, List.nodup_cons] at hnd
    rcases List.mem_cons.mp hm with heq | hm2
    · cases heq
      simp [findCell_cons]
    · have hne : n ≠ i := by
        intro h
        subst h
        exact hnd.1 (List.mem_map.mpr ⟨(n, cell), hm2, rfl⟩)
      rw [findCell_cons, if_neg hne]
      exact ih hnd.2 hm2

theorem mem_of_findCell_eq_some (cs : List (Nat × NodeCell))
    (i : Nat) (cell : NodeCell) (h : findCell cs i = some cell) :
    (i, cell) ∈ cs := by
  induction cs with
  | nil => cases h
  | cons q cs ih =>
    obtain ⟨n, c0⟩ := q
    rw [findCell_cons] at h
    by_cases hn : n = i
    · rw [if_pos hn] at h
      cases h
      subst hn
      exact List.mem_cons_self _ _
    · rw [if_neg hn] at h
      exact List.mem_cons_of_mem _ (ih h)

theorem lookup_isSome_keys (s : Store) (i : Nat)
    (h : ∃ cell, s.lookup i = some cell) :
    i ∈ s.cells.map fun p => p.1 := by
  obtain ⟨cell, hc⟩ := h
  exact List.mem_map.mpr ⟨(i, cell), mem_of_findCell_eq_some _ _ _ hc, rfl⟩

theorem lookup_fresh_none (s : Store) (hwf : s.WF) (i : Nat)
    (h : s.nextId ≤ i) : s.lookup i = none := by
  cases hl : s.lookup i with
  | none => rfl
  | some cell =>
    exfalso
    have hm := mem_of_findCell_eq_some _ _ _ hl
    have h2 : i < s.nextId := hwf.2.1 (i, cell) hm
    exact absurd h2 (Nat.not_lt.mpr h)

theorem Store.WF.lookup_lt {s : Store} (hwf : s.WF) {i : Nat} {cell : NodeCell}
    (hl : s.lookup i = some cell) : i < s.nextId :=
  hwf.2.1 (i, cell) (mem_of_findCell_eq_some _ _ _ hl)

theorem Store.WF.lookup_child {s : Store} (hwf : s.WF) {i : Nat}
    {cell : NodeCell} (hl : s.lookup i = some cell) {c : Nat}
    (hc : c ∈ cell.children) :
    c < s.nextId ∧ (s.lookup c).isSome = true :=
  hwf.2.2.1 (i, cell) (mem_of_findCell_eq_some _ _ _ hl) c hc

theorem Store.WF.lookup_parent {s : Store} (hwf : s.WF) {i : Nat}
    {cell : NodeCell} (hl : s.lookup i = some cell) {q : Nat}
    (hq : q ∈ cell.parent) : q < s.nextId :=
  hwf.2.2.2 (i, cell) (mem_of_findCell_eq_some _ _ _ hl) q hq

theorem Store.INV.lookup_child_parent {s : Store} (hinv : s.INV) {p : Nat}
    {cell : NodeCell} (hl : s.lookup p = some cell) {c : Nat}
    (hc : c ∈ cell.children) :
    ∃ ccell, s.lookup c = some ccell ∧ ccell.parent = some p :=
  hinv.1 (p, cell) (mem_of_findCell_eq_some _ _ _ hl) c hc

theorem Store.INV.lookup_children_nodup {s : Store} (hinv : s.INV) {p : Nat}
    {cell : NodeCell} (hl : s.lookup p = some cell) :
    cell.children.Nodup :=
  hinv.2.1 (p, cell) (mem_of_findCell_eq_some _ _ _ hl)

theorem Store.INV.lookup_parent_mem {s : Store} (hinv : s.INV) {p : Nat}
    {cell : NodeCell} (hl : s.lookup p = some cell) {q : Nat}
    (hq : q ∈ cell.parent) :
    ∃ qcell, s.lookup q = some qcell ∧ p ∈ qcell.children :=
  hinv.2.2 (p, cell) (mem_of_findCell_eq_some _ _ _ hl) q hq

theorem foldl_setParent_lookup (pid : Nat) :
    ∀ (cs : List Nat) (s : Store) (j : Nat),
      (cs.foldl (fun acc c => acc.setParent c (some pid)) s).lookup j
        = if j ∈ cs then
            (s.lookup j).map fun cell => { cell with parent := some pid }
          else s.lookup j := by
  intro cs
  induction cs with
  | nil => intro s j; simp
  | cons c cs ih =>
    intro s j
    rw [List.foldl_cons, ih]
    by_cases hmem : j ∈ cs
    · rw [if_pos hmem, if_pos (List.mem_cons_of_mem _ hmem)]
      rw [Store.setParent, lookup_update]
      by_cases hjc : j = c
      · rw [if_pos hjc]
        cases s.lookup j <;> rfl
      · rw [if_neg hjc]
    · rw [if_neg hmem]
      by_cases hjc : j = c
      · rw [if_pos (by simp [hjc]), Store.setParent, lookup_update,
          if_pos hjc]
      · rw [if_neg (by simp [hjc, hmem]), Store.setParent,
          lookup_update_ne _ _ _ _ hjc]

theorem foldl_setParent_nextId (pid : Nat) :
    ∀ (cs : List Nat) (s : Store),
      (cs.foldl (fun acc c => acc.setParent c (some pid)) s).nextId
        = s.nextId := by
  intro cs
  induction cs with
  | nil => intro s; rfl
  | cons c cs ih => intro s; rw [List.foldl_cons, ih]; rfl

theorem foldl_setParent_keys (pid : Nat) :
    ∀ (cs : List Nat) (s : Store),
      (cs.foldl (fun acc c => acc.setParent c (some pid))
        s).cells.map (fun q => q.1) = s.cells.map fun q => q.1 := by
  intro cs
  induction cs with
  | nil => intro s; rfl
  | cons c cs ih =>
    intro s
    rw [List.foldl_cons, ih]
    simpa [Store.setParent, Store.update] using
      keys_updateCell s.cells c fun cell => { cell with parent := some pid }

theorem constructWithChildren_snd (s : Store) (d : NodeData)
    (cids : List Nat) : (s.constructWithChildren d cids).2 = s.nextId :=
  rfl

theorem nextId_constructWithChildren (s : Store) (d : NodeData)
    (cids : List Nat) :
    (s.constructWithChildren d cids).1.nextId = s.nextId + 1 := by
  rw [Store.constructWithChildren]
  exact foldl_setParent_nextId _ _ _

theorem keys_constructWithChildren (s : Store) (d : NodeData)
    (cids : List Nat) :
    (s.constructWithChildren d cids).1.cells.map (fun q => q.1)
      = s.nextId :: s.cells.map fun q => q.1 := by
  rw [Store.constructWithChildren]
  rw [foldl_setParent_keys]
  rfl

theorem lookup_constructWithChildren (s : Store) (d : NodeData)
    (cids : List Nat) (hlt : ∀ c ∈ cids, c < s.nextId) (j : Nat) :
    (s.constructWithChildren d cids).1.lookup j
      = if j = s.nextId then some ⟨d, none, cids⟩
        else if j ∈ cids then
          (s.lookup j).map fun cell => { cell with parent := some s.nextId }
        else s.lookup j := by
  rw [Store.constructWithChildren]
  rw [foldl_setParent_lookup]
  by_cases hj : j = s.nextId
  · subst hj
    rw [if_neg (fun hmem => by have := hlt _ hmem; omega), if_pos rfl]
    show findCell _ _ = _
    rw [findCell_cons, if_pos rfl]
  · rw [if_neg hj]
    by_cases hmem : j ∈ cids
    · rw [if_pos hmem, if_pos hmem]
      have : (⟨(s.nextId, ⟨d, none, cids⟩) :: s.cells, s.nextId + 1⟩ :
          Store).lookup j = s.lookup j := by
        show findCell _ _ = _
        rw [findCell_cons, if_neg (fun h => hj h.symm)]
        rfl
      rw [this]
    · rw [if_neg hmem, if_neg hmem]
      show findCell _ _ = _
      rw [findCell_cons, if_neg (fun h => hj h.symm)]
      rfl

theorem fresh_not_key (s : Store) (hwf : s.WF) :
    s.nextId ∉ s.cells.map fun q => q.1 := by
  intro hmem
  obtain ⟨⟨n, cell⟩, hm, he⟩ := List.mem_map.mp hmem
  have := hwf.2.1 (n, cell) hm
  simp only at he
  omega

theorem WF_constructWithChildren (s : Store) (hwf : s.WF) (d : NodeData)
    (cids : List Nat)
    (hcs : ∀ c ∈ cids, c < s.nextId ∧ (s.lookup c).isSome = true) :
    (s.constructWithChildren d cids).1.WF := by
  have hlt : ∀ c ∈ cids, c < s.nextId := fun c hc => (hcs c hc).1
  have hkeys := keys_constructWithChildren s d cids
  have hnext := nextId_constructWithChildren s d cids
  have hlk := lookup_constructWithChildren s d cids hlt
  have hnd : ((s.constructWithChildren d cids).1.cells.map
      fun q => q.1).Nodup := by
    rw [hkeys]
    exact List.nodup_cons.mpr ⟨fresh_not_key s hwf, hwf.1⟩
  refine ⟨hnd, ?_, ?_, ?_⟩
  · intro p hm
    have hk : p.1 ∈ s.nextId :: s.cells.map fun q => q.1 := by
      rw [← hkeys]
      exact List.mem_map.mpr ⟨p, hm, rfl⟩
    rw [hnext]
    rcases List.mem_cons.mp hk with h | h
    · omega
    · obtain ⟨⟨n, cell⟩, hmm, he⟩ := List.mem_map.mp h
      have := hwf.2.1 (n, cell) hmm
      simp only at he
      omega
  · intro p hm c hc
    obtain ⟨n, cell⟩ := p
    have hl : (s.constructWithChildren d cids).1.lookup n = some cell :=
      findCell_eq_some_of_mem _ hnd _ _ hm
    rw [hlk] at hl
    rw [hnext]
    by_cases hn : n = s.nextId
    · rw [if_pos hn] at hl
      cases hl
      have hclt := hlt c hc
      refine ⟨by omega, ?_⟩
      rw [hlk]
      rw [if_neg (by omega), if_pos hc]
      have := (hcs c hc).2
      cases hsc : s.lookup c with
      | none => rw [hsc] at this; cases this
      | some ccell => rfl
    · rw [if_neg hn] at hl
      have hold : ∃ oldcell, s.lookup n = some oldcell ∧
          oldcell.children = cell.children := by
        by_cases hmem : n ∈ cids
        · rw [if_pos hmem] at hl
          cases hsc : s.lookup n with
          | none => rw [hsc] at hl; cases hl
          | some oc =>
            rw [hsc] at hl
            simp only [Option.map_some'] at hl
            injection hl with hl2
            exact ⟨oc, rfl, by rw [← hl2]⟩
        · rw [if_neg hmem] at hl
          exact ⟨cell, hl, rfl⟩
      obtain ⟨oldcell, hoc, hch⟩ := hold
      rw [← hch] at hc
      have hcc := hwf.lookup_child hoc hc
      refine ⟨by omega, ?_⟩
      rw [hlk]
      have hclt : c < s.nextId := hcc.1
      rw [if_neg (by omega)]
      by_cases hcm : c ∈ cids
      · rw [if_pos hcm]
        cases hsc : s.lookup c with
        | none => rw [hsc] at hcc; cases hcc.2
        | some ccell => rfl
      · rw [if_neg hcm]
        exact hcc.2
  · intro p hm q hq
    obtain ⟨n, cell⟩ := p
    have hl : (s.constructWithChildren d cids).1.lookup n = some cell :=
      findCell_eq_some_of_mem _ hnd _ _ hm
    rw [hlk] at hl
    rw [hnext]
    by_cases hn : n = s.nextId
    · rw [if_pos hn] at hl
      cases hl
      cases hq
    · rw [if_neg hn] at hl
      by_cases hmem : n ∈ cids
      · rw [if_pos hmem] at hl
        cases hsc : s.lookup n with
        | none => rw [hsc] at hl; cases hl
        | some oc =>
          rw [hsc] at hl
          simp only [Option.map_some'] at hl
          injection hl with hl2
          rw [← hl2] at hq
          simp only [Option.mem_def, Option.some.injEq] at hq
          omega
      · rw [if_neg hmem] at hl
        have := hwf.lookup_parent hl hq
        omega

theorem INV_constructWithChildren (s : Store) (hwf : s.WF) (hinv : s.INV)
    (d : NodeData) (cids : List Nat) (hnd : cids.Nodup)
    (hcs : ∀ c ∈ cids, c < s.nextId ∧
      ∃ ccell, s.lookup c = some ccell ∧ ccell.parent = none) :
    (s.constructWithChildren d cids).1.INV := by
  have hlt : ∀ c ∈ cids, c < s.nextId := fun c hc => (hcs c hc).1
  have hkeys := keys_constructWithChildren s d cids
  have hlk := lookup_constructWithChildren s d cids hlt
  have hndk : ((s.constructWithChildren d cids).1.cells.map
      fun q => q.1).Nodup := by
    rw [hkeys]
    exact List.nodup_cons.mpr ⟨fresh_not_key s hwf, hwf.1⟩
  have hnotin : ∀ (p : Nat) (cell : NodeCell), s.lookup p = some cell →
      ∀ c ∈ cell.children, c ∉ cids := by
    intro p cell hl c hc hmem
    obtain ⟨ccell, hcl, hcp⟩ := hinv.lookup_child_parent hl hc
    obtain ⟨_, ccell2, hcl2, hcp2⟩ := hcs c hmem
    rw [hcl] at hcl2
    cases hcl2
    rw [hcp] at hcp2
    cases hcp2
  refine ⟨?_, ?_, ?_⟩
  · intro p hm c hc
    obtain ⟨n, cell⟩ := p
    have hl : (s.constructWithChildren d cids).1.lookup n = some cell :=
      findCell_eq_some_of_mem _ hndk _ _ hm
    rw [hlk] at hl
    by_cases hn : n = s.nextId
    · rw [if_pos hn] at hl
      cases hl
      obtain ⟨hclt, ccell, hcl, _⟩ := hcs c hc
      refine ⟨{ ccell with parent := some s.nextId }, ?_, ?_⟩
      · rw [hlk, if_neg (by omega), if_pos hc, hcl]
        rfl
      · simp [hn]
    · rw [if_neg hn] at hl
      have hold : ∃ oldcell, s.lookup n = some oldcell ∧
          oldcell.children = cell.children := by
        by_cases hmem : n ∈ cids
        · rw [if_pos hmem] at hl
          cases hsc : s.lookup n with
          | none => rw [hsc] at hl; cases hl
          | some oc =>
            rw [hsc] at hl
            simp only [Option.map_some'] at hl
            injection hl with hl2
            exact ⟨oc, rfl, by rw [← hl2]⟩
        · rw [if_neg hmem] at hl
          exact ⟨cell, hl, rfl⟩
      obtain ⟨oldcell, hoc, hch⟩ := hold
      rw [← hch] at hc
      obtain ⟨ccell, hcl, hcp⟩ := hinv.lookup_child_parent hoc hc
      have hcnot : c ∉ cids := hnotin n oldcell hoc c hc
      have hclt : c < s.nextId := (hwf.lookup_child hoc hc).1
      refine ⟨ccell, ?_, by simpa using hcp⟩
      rw [hlk, if_neg (by omega), if_neg hcnot]
      exact hcl
  · intro p hm
    obtain ⟨n, cell⟩ := p
    have hl : (s.constructWithChildren d cids).1.lookup n = some cell :=
      findCell_eq_some_of_mem _ hndk _ _ hm
    rw [hlk] at hl
    by_cases hn : n = s.nextId
    · rw [if_pos hn] at hl
      cases hl
      exact hnd
    · rw [if_neg hn] at hl
      by_cases hmem : n ∈ cids
      · rw [if_pos hmem] at hl
        cases hsc : s.lookup n with
        | none => rw [hsc] at hl; cases hl
        | some oc =>
          rw [hsc] at hl
          simp only [Option.map_some'] at hl
          injection hl with hl2
          have := hinv.lookup_children_nodup hsc
          rw [← hl2]
          exact this
      · rw [if_neg hmem] at hl
        exact hinv.lookup_children_nodup hl
  · intro p hm q hq
    obtain ⟨n, cell⟩ := p
    have hl : (s.constructWithChildren d cids).1.lookup n = some cell :=
      findCell_eq_some_of_mem _ hndk _ _ hm
    rw [hlk] at hl
    by_cases hn : n = s.nextId
    · rw [if_pos hn] at hl
      cases hl
      cases hq
    · rw [if_neg hn] at hl
      by_cases hmem : n ∈ cids
      · rw [if_pos hmem] at hl
        cases hsc : s.lookup n with
        | none => rw [hsc] at hl; cases hl
        | some oc =>
          rw [hsc] at hl
          simp only [Option.map_some'] at hl
          injection hl with hl2
          rw [← hl2] at hq
          simp only [Option.mem_def, Option.some.injEq] at hq
          refine ⟨⟨d, none, cids⟩, ?_, ?_⟩
          · rw [hlk, if_pos hq.symm]
          · simpa using hmem
      · rw [if_neg hmem] at hl
        obtain ⟨qcell, hql, hqm⟩ := hinv.lookup_parent_mem hl hq
        have hqlt : q < s.nextId := hwf.lookup_parent hl hq
        by_cases hqc : q ∈ cids
        · refine ⟨{ qcell with parent := some s.nextId }, ?_, ?_⟩
          · rw [hlk, if_neg (by omega), if_pos hqc, hql]
            rfl
          · simpa using hqm
        · refine ⟨qcell, ?_, hqm⟩
          rw [hlk, if_neg (by omega), if_neg hqc]
          exact hql

theorem constructLeaf_eq (s : Store) (d : NodeData) :
    s.constructLeaf d = s.constructWithChildren d [] := rfl

theorem lookup_addChildToInternalVector (s : Store) (p c : Nat)
    (hne : p ≠ c) (j : Nat) :
    (s.addChildToInternalVector p c).lookup j
      = if j = p then
          (s.lookup p).map fun cell =>
            { cell with children := cell.children ++ [c] }
        else if j = c then
          (s.lookup c).map fun cell => { cell with parent := some p }
        else s.lookup j := by
  by_cases hp : j = p
  · subst hp
    rw [if_pos rfl]
    exact lookup_addChildToInternalVector_parent s _ c hne
  · rw [if_neg hp]
    by_cases hc : j = c
    · subst hc
      rw [if_pos rfl]
      exact lookup_addChildToInternalVector_child s p _
        fun h => hp h
    · rw [if_neg hc]
      exact lookup_addChildToInternalVector_other s p c j hp hc

theorem WF_addChildToInternalVector (s : Store) (hwf : s.WF) (p c : Nat)
    (pcell ccell : NodeCell) (hpl : s.lookup p = some pcell)
    (hcl : s.lookup c = some ccell) (hne : p ≠ c) :
    (s.addChildToInternalVector p c).WF := by
  have hplt : p < s.nextId := hwf.lookup_lt hpl
  have hclt : c < s.nextId := hwf.lookup_lt hcl
  have hlk := lookup_addChildToInternalVector s p c hne
  have hkeys := keys_addChildToInternalVector s p c
  have hnd : ((s.addChildToInternalVector p c).cells.map
      fun q => q.1).Nodup := by rw [hkeys]; exact hwf.1
  have hsome : ∀ j, ((s.addChildToInternalVector p c).lookup j).isSome
      = (s.lookup j).isSome := by
    intro j
    rw [hlk]
    by_cases hjp : j = p
    · subst hjp; rw [if_pos rfl]; cases s.lookup j <;> rfl
    · rw [if_neg hjp]
      by_cases hjc : j = c
      · subst hjc; rw [if_pos rfl]; cases s.lookup j <;> rfl
      · rw [if_neg hjc]
  refine ⟨hnd, ?_, ?_, ?_⟩
  · intro q hm
    have : q.1 ∈ (s.addChildToInternalVector p c).cells.map
        fun r => r.1 := List.mem_map.mpr ⟨q, hm, rfl⟩
    rw [hkeys] at this
    obtain ⟨⟨n, cell⟩, hmm, he⟩ := List.mem_map.mp this
    have := hwf.2.1 (n, cell) hmm
    simp only at he
    rw [show (s.addChildToInternalVector p c).nextId = s.nextId from rfl]
    omega
  · intro q hm c' hc'
    obtain ⟨n, cell⟩ := q
    have hl : (s.addChildToInternalVector p c).lookup n = some cell :=
      findCell_eq_some_of_mem _ hnd _ _ hm
    rw [hlk] at hl
    rw [show (s.addChildToInternalVector p c).nextId = s.nextId from rfl]
    by_cases hn : n = p
    · rw [if_pos hn, hpl] at hl
      injection hl with hl2
      rw [← hl2] at hc'
      simp only at hc'
      rcases List.mem_append.mp hc' with hmem | hmem
      · have := hwf.lookup_child hpl hmem
        rw [hsome c']
        exact ⟨this.1, this.2⟩
      · have : c' = c := List.mem_singleton.mp hmem
        subst this
        rw [hsome c', hcl]
        exact ⟨hclt, rfl⟩
    · rw [if_neg hn] at hl
      by_cases hnc : n = c
      · rw [if_pos hnc, hcl] at hl
        injection hl with hl2
        rw [← hl2] at hc'
        simp only at hc'
        have := hwf.lookup_child hcl hc'
        rw [hsome c']
        exact ⟨this.1, this.2⟩
      · rw [if_neg hnc] at hl
        have := hwf.lookup_child hl hc'
        rw [hsome c']
        exact ⟨this.1, this.2⟩
  · intro q hm r hr
    obtain ⟨n, cell⟩ := q
    have hl : (s.addChildToInternalVector p c).lookup n = some cell :=
      findCell_eq_some_of_mem _ hnd _ _ hm
    rw [hlk] at hl
    rw [show (s.addChildToInternalVector p c).nextId = s.nextId from rfl]
    by_cases hn : n = p
    · rw [if_pos hn, hpl] at hl
      injection hl with hl2
      rw [← hl2] at hr
      simp only at hr
      exact hwf.lookup_parent hpl hr
    · rw [if_neg hn] at hl
      by_cases hnc : n = c
      · rw [if_pos hnc, hcl] at hl
        injection hl with hl2
        rw [← hl2] at hr
        simp only [Option.mem_def, Option.some.injEq] at hr
        omega
      · rw [if_neg hnc] at hl
        exact hwf.lookup_parent hl hr

theorem INV_addChildToInternalVector (s : Store) (hwf : s.WF)
    (hinv : s.INV) (p c : Nat) (pcell ccell : NodeCell)
    (hpl : s.lookup p = some pcell) (hcl : s.lookup c = some ccell)
    (hcp : ccell.parent = none) (hne : p ≠ c) :
    (s.addChildToInternalVector p c).INV := by
  have hlk := lookup_addChildToInternalVector s p c hne
  have hkeys := keys_addChildToInternalVector s p c
  have hnd : ((s.addChildToInternalVector p c).cells.map
      fun q => q.1).Nodup := by rw [hkeys]; exact hwf.1
  have hcnotchild : ∀ (j : Nat) (jcell : NodeCell),
      s.lookup j = some jcell → c ∉ jcell.children := by
    intro j jcell hjl hmem
    obtain ⟨ccell2, hcl2, hcp2⟩ := hinv.lookup_child_parent hjl hmem
    rw [hcl] at hcl2
    cases hcl2
    rw [hcp] at hcp2
    cases hcp2
  refine ⟨?_, ?_, ?_⟩
  · intro q hm c' hc'
    obtain ⟨n, cell⟩ := q
    have hl : (s.addChildToInternalVector p c).lookup n = some cell :=
      findCell_eq_some_of_mem _ hnd _ _ hm
    rw [hlk] at hl
    by_cases hn : n = p
    · rw [if_pos hn, hpl] at hl
      injection hl with hl2
      rw [← hl2] at hc'
      simp only at hc'
      rcases List.mem_append.mp hc' with hmem | hmem
      · obtain ⟨c'cell, hc'l, hc'p⟩ := hinv.lookup_child_parent hpl hmem
        have hc'ne : c' ≠ c := by
          intro h
          subst h
          exact hcnotchild p pcell hpl hmem
        by_cases hc'p2 : c' = p
        · refine ⟨{ pcell with children := pcell.children ++ [c] },
            ?_, ?_⟩
          · rw [hlk, if_pos hc'p2, hpl]
            rfl
          · rw [hc'p2, hpl] at hc'l
            cases hc'l
            show pcell.parent = some n
            rw [hn]
            exact hc'p
        · refine ⟨c'cell, ?_, by simpa [hn] using hc'p⟩
          rw [hlk, if_neg hc'p2, if_neg hc'ne]
          exact hc'l
      · have : c' = c := List.mem_singleton.mp hmem
        subst this
        refine ⟨{ ccell with parent := some p }, ?_, by simp [hn]⟩
        rw [hlk, if_neg (fun h => hne h.symm), if_pos rfl, hcl]
        rfl
    · rw [if_neg hn] at hl
      have hchildren : ∃ oldcell, s.lookup n = some oldcell ∧
          oldcell.children = cell.children := by
        by_cases hnc : n = c
        · rw [if_pos hnc, hcl] at hl
          injection hl with hl2
          exact ⟨ccell, by rw [hnc, hcl], by rw [← hl2]⟩
        · rw [if_neg hnc] at hl
          exact ⟨cell, hl, rfl⟩
      obtain ⟨oldcell, hol, hoch⟩ := hchildren
      rw [← hoch] at hc'
      obtain ⟨c'cell, hc'l, hc'p⟩ := hinv.lookup_child_parent hol hc'
      have hc'ne : c' ≠ c := by
        intro h
        subst h
        exact hcnotchild n oldcell hol hc'
      by_cases hc'p2 : c' = p
      · refine ⟨{ pcell with children := pcell.children ++ [c] }, ?_, ?_⟩
        · rw [hlk, if_pos hc'p2, hpl]
          rfl
        · rw [hc'p2, hpl] at hc'l
          cases hc'l
          exact hc'p
      · refine ⟨c'cell, ?_, hc'p⟩
        rw [hlk, if_neg hc'p2, if_neg hc'ne]
        exact hc'l
  · intro q hm
    obtain ⟨n, cell⟩ := q
    have hl : (s.addChildToInternalVector p c).lookup n = some cell :=
      findCell_eq_some_of_mem _ hnd _ _ hm
    rw [hlk] at hl
    by_cases hn : n = p
    · rw [if_pos hn, hpl] at hl
      injection hl with hl2
      rw [← hl2]
      show (pcell.children ++ [c]).Nodup
      rw [List.nodup_append]
      refine ⟨hinv.lookup_children_nodup hpl, List.nodup_singleton c, ?_⟩
      intro a ha hb
      have : a = c := List.mem_singleton.mp hb
      subst this
      exact hcnotchild p pcell hpl ha
    · rw [if_neg hn] at hl
      by_cases hnc : n = c
      · rw [if_pos hnc, hcl] at hl
        injection hl with hl2
        rw [← hl2]
        show ccell.children.Nodup
        exact hinv.lookup_children_nodup hcl
      · rw [if_neg hnc] at hl
        exact hinv.lookup_children_nodup hl
  · intro q hm r hr
    obtain ⟨n, cell⟩ := q
    have hl : (s.addChildToInternalVector p c).lookup n = some cell :=
      findCell_eq_some_of_mem _ hnd _ _ hm
    rw [hlk] at hl
    by_cases hnc : n = c
    · rw [if_neg (by rw [hnc]; exact fun h => hne h.symm), if_pos hnc,
        hcl] at hl
      injection hl with hl2
      rw [← hl2] at hr
      simp only [Option.mem_def, Option.some.injEq] at hr
      refine ⟨{ pcell with children := pcell.children ++ [c] }, ?_, ?_⟩
      · rw [hlk, if_pos hr.symm, hpl]
        rfl
      · show n ∈ pcell.children ++ [c]
        rw [hnc]
        exact List.mem_append_right _ (List.mem_singleton_self c)
    · have hparents : ∃ oldcell, s.lookup n = some oldcell ∧
          oldcell.parent = cell.parent := by
        by_cases hn : n = p
        · rw [if_pos hn, hpl] at hl
          injection hl with hl2
          exact ⟨pcell, by rw [hn, hpl], by rw [← hl2]⟩
        · rw [if_neg hn, if_neg hnc] at hl
          exact ⟨cell, hl, rfl⟩
      obtain ⟨oldcell, hol, hop⟩ := hparents
      rw [← hop] at hr
      obtain ⟨qcell, hql, hqm⟩ := hinv.lookup_parent_mem hol hr
      by_cases hrp : r = p
      · refine ⟨{ pcell with children := pcell.children ++ [c] }, ?_, ?_⟩
        · rw [hlk, if_pos hrp, hpl]
          rfl
        · rw [hrp, hpl] at hql
          cases hql
          exact List.mem_append_left _ hqm
      · by_cases hrc : r = c
        · refine ⟨{ ccell with parent := some p }, ?_, ?_⟩
          · rw [hlk, if_neg hrp, if_pos hrc, hcl]
            rfl
          · rw [hrc, hcl] at hql
            cases hql
            exact hqm
        · refine ⟨qcell, ?_, hqm⟩
          rw [hlk, if_neg hrp, if_neg hrc]
          exact hql

theorem cloneNode_zero (s : Store) (i : Nat) :
    Store.cloneNode 0 s i = none := by
  simp [Store.cloneNode]

theorem cloneNode_succ_inv (fuel : Nat) (s : Store) (i : Nat) (s' : Store)
    (i' : Nat) (h : Store.cloneNode (fuel + 1) s i = some (s', i')) :
    ∃ icell s2, s.lookup i = some icell ∧
      Store.cloneChildren fuel
        ⟨(s.nextId, ⟨icell.data, none, []⟩) :: s.cells, s.nextId + 1⟩
        s.nextId icell.children = some s2 ∧
      s' = s2 ∧ i' = s.nextId := by
  simp only [Store.cloneNode] at h
  split at h
  · cases h
  · rename_i icell hli
    split at h
    · cases h
    · rename_i s2 hcc
      simp only [Option.some.injEq, Prod.mk.injEq] at h
      exact ⟨icell, s2, hli, hcc, h.1.symm, h.2.symm⟩

theorem cloneChildren_nil_inv (fuel : Nat) (s : Store) (p : Nat)
    (s' : Store) (h : Store.cloneChildren fuel s p [] = some s') :
    s' = s := by
  simp only [Store.cloneChildren, Option.some.injEq] at h
  exact h.symm

theorem cloneChildren_cons_inv (fuel : Nat) (s : Store) (p c : Nat)
    (cs : List Nat) (s' : Store)
    (h : Store.cloneChildren fuel s p (c :: cs) = some s') :
    ∃ s2 c2, Store.cloneNode fuel s c = some (s2, c2) ∧
      Store.cloneChildren fuel (s2.addChildToInternalVector p c2) p cs
        = some s' := by
  simp only [Store.cloneChildren] at h
  split at h
  · cases h
  · rename_i s2 c2 hcn
    exact ⟨s2, c2, hcn, h⟩

/-- Everything a successful `cloneNode` call guarantees: the new root
is the old allocation frontier; existing cells are untouched; the new
root carries the original node's data and a null parent; every cell at
or above the old frontier has children strictly above its own id and
below the new frontier; and well-formedness plus the parent/child
invariant carry over. -/
def CloneNodePost (s : Store) (i : Nat) (s' : Store) (i' : Nat) : Prop :=
  i' = s.nextId ∧ s.nextId < s'.nextId ∧
  (∀ j, j < s.nextId → s'.lookup j = s.lookup j) ∧
  (∃ icell cell, s.lookup i = some icell ∧ s'.lookup i' = some cell ∧
    cell.data = icell.data ∧ cell.parent = none) ∧
  (∀ j cell, s.nextId ≤ j → s'.lookup j = some cell →
    ∀ c ∈ cell.children, j < c ∧ c < s'.nextId) ∧
  s'.WF ∧ s'.INV

/-- Everything a successful `cloneChildren` loop guarantees: the
frontier grows; cells other than the adopting parent are untouched;
the parent's cell gains only freshly cloned children at the end of its
child vector; fresh cells have children strictly above their own id
and below the new frontier; and well-formedness plus the parent/child
invariant carry over. -/
def CloneChildrenPost (s : Store) (p : Nat) (s' : Store) : Prop :=
  s.nextId ≤ s'.nextId ∧
  (∀ j, j < s.nextId → j ≠ p → s'.lookup j = s.lookup j) ∧
  (∀ pcell, s.lookup p = some pcell → ∃ added, s'.lookup p =
      some ⟨pcell.data, pcell.parent, pcell.children ++ added⟩ ∧
      ∀ c ∈ added, s.nextId ≤ c ∧ c < s'.nextId) ∧
  (∀ j cell, s.nextId ≤ j → s'.lookup j = some cell →
    ∀ c ∈ cell.children, j < c ∧ c < s'.nextId) ∧
  s'.WF ∧ s'.INV

mutual

theorem cloneNode_post : ∀ (fuel : Nat) (s : Store) (i : Nat) (s' : Store)
    (i' : Nat), s.WF → s.INV → Store.cloneNode fuel s i = some (s', i') →
    CloneNodePost s i s' i'
  | 0, s, i, s', i', _, _, h => by
    rw [cloneNode_zero] at h
    cases h
  | fuel + 1, s, i, s', i', hwf, hinv, h => by
    obtain ⟨icell, s2, hli, hcc, hs', hi'⟩ :=
      cloneNode_succ_inv fuel s i s' i' h
    subst hs'
    subst hi'
    have hs1wf :
        (Store.mk ((s.nextId, ⟨icell.data, none, []⟩) :: s.cells)
          (s.nextId + 1)).WF :=
      WF_constructWithChildren s hwf icell.data []
        (fun c hc => absurd hc (List.not_mem_nil c))
    have hs1inv :
        (Store.mk ((s.nextId, ⟨icell.data, none, []⟩) :: s.cells)
          (s.nextId + 1)).INV :=
      INV_constructWithChildren s hwf hinv icell.data [] List.nodup_nil
        (fun c hc => absurd hc (List.not_mem_nil c))
    have hs1look :
        (Store.mk ((s.nextId, ⟨icell.data, none, []⟩) :: s.cells)
          (s.nextId + 1)).lookup s.nextId
          = some ⟨icell.data, none, []⟩ := by
      show findCell _ _ = _
      rw [findCell_cons, if_pos rfl]
    have hpost := cloneChildren_post fuel
      ⟨(s.nextId, ⟨icell.data, none, []⟩) :: s.cells, s.nextId + 1⟩
      s.nextId icell.children s' hs1wf hs1inv
      (Nat.lt_succ_self _) ⟨⟨icell.data, none, []⟩, hs1look, rfl⟩ hcc
    obtain ⟨hnle, hframe, hpcell, hbounds, hwf', hinv'⟩ := hpost
    have hnle' : s.nextId + 1 ≤ s'.nextId := hnle
    obtain ⟨added, hlp, haddb⟩ := hpcell ⟨icell.data, none, []⟩ hs1look
    refine ⟨rfl, by omega, ?_, ?_, ?_, hwf', hinv'⟩
    · intro j hj
      have h1 : s'.lookup j
          = (Store.mk ((s.nextId, ⟨icell.data, none, []⟩) :: s.cells)
              (s.nextId + 1)).lookup j :=
        hframe j (show j < s.nextId + 1 by omega) (by omega)
      rw [h1]
      show findCell _ _ = _
      rw [findCell_cons, if_neg (by omega)]
      rfl
    · exact ⟨icell, ⟨icell.data, none, [] ++ added⟩, hli, hlp, rfl, rfl⟩
    · intro j cell hj hcell c hc
      by_cases hje : j = s.nextId
      · subst hje
        rw [hlp] at hcell
        injection hcell with hcell2
        rw [← hcell2] at hc
        simp only [List.nil_append] at hc
        have := haddb c hc
        have h2 : s.nextId + 1 ≤ c := this.1
        exact ⟨by omega, this.2⟩
      · have := hbounds j cell (by show s.nextId + 1 ≤ j; omega) hcell c hc
        exact this
termination_by fuel => (fuel, 0)

theorem cloneChildren_post : ∀ (fuel : Nat) (s : Store) (p : Nat)
    (cs : List Nat) (s' : Store), s.WF → s.INV → p < s.nextId →
    (∃ pc, s.lookup p = some pc ∧ pc.parent = none) →
    Store.cloneChildren fuel s p cs = some s' → CloneChildrenPost s p s'
  | fuel, s, p, [], s', hwf, hinv, _, _, h => by
    have hs := cloneChildren_nil_inv fuel s p s' h
    subst hs
    refine ⟨Nat.le_refl _, fun j _ _ => rfl, ?_, ?_, hwf, hinv⟩
    · intro pcell hpl
      refine ⟨[], ?_, fun c hc => absurd hc (List.not_mem_nil c)⟩
      rw [hpl, List.append_nil]
    · intro j cell hj hcell
      rw [lookup_fresh_none s' hwf j hj] at hcell
      cases hcell
  | fuel, s, p, c :: cs, s', hwf, hinv, hp, hpc, h => by
    obtain ⟨s2, c2, hcn, hrest⟩ := cloneChildren_cons_inv fuel s p c cs s' h
    obtain ⟨hc2, hlt2, hframe2, ⟨ccell0, c2cell, hcl0, hc2l, _, hparent⟩,
      hbounds2, hwf2, hinv2⟩ := cloneNode_post fuel s c s2 c2 hwf hinv hcn
    obtain ⟨pc, hpl, hppar⟩ := hpc
    have hpl2 : s2.lookup p = some pc := by
      rw [hframe2 p hp]
      exact hpl
    have hpc2ne : p ≠ c2 := by omega
    have hwf3 := WF_addChildToInternalVector s2 hwf2 p c2 pc c2cell hpl2
      hc2l hpc2ne
    have hinv3 := INV_addChildToInternalVector s2 hwf2 hinv2 p c2 pc c2cell
      hpl2 hc2l hparent hpc2ne
    have hlk3 := lookup_addChildToInternalVector s2 p c2 hpc2ne
    have hnext3 : (s2.addChildToInternalVector p c2).nextId = s2.nextId :=
      rfl
    have hlp3 : (s2.addChildToInternalVector p c2).lookup p
        = some ⟨pc.data, pc.parent, pc.children ++ [c2]⟩ := by
      rw [hlk3 p, if_pos rfl, hpl2]
      rfl
    have hpost := cloneChildren_post fuel (s2.addChildToInternalVector p c2)
      p cs s' hwf3 hinv3 (by rw [hnext3]; omega)
      ⟨⟨pc.data, pc.parent, pc.children ++ [c2]⟩, hlp3, hppar⟩ hrest
    obtain ⟨hnle4, hframe4, hpcell4, hbounds4, hwf', hinv'⟩ := hpost
    have hnle4' : s2.nextId ≤ s'.nextId := by
      rw [hnext3] at hnle4
      exact hnle4
    refine ⟨by omega, ?_, ?_, ?_, hwf', hinv'⟩
    · intro j hj hjp
      have h1 : s'.lookup j = (s2.addChildToInternalVector p c2).lookup j :=
        hframe4 j (by rw [hnext3]; omega) hjp
      rw [h1, hlk3 j, if_neg hjp, if_neg (by omega)]
      exact hframe2 j (by omega)
    · intro pcell hplx
      rw [hpl] at hplx
      injection hplx with hplx2
      subst hplx2
      obtain ⟨added4, hlp4, haddb4⟩ :=
        hpcell4 ⟨pc.data, pc.parent, pc.children ++ [c2]⟩ hlp3
      refine ⟨c2 :: added4, ?_, ?_⟩
      · rw [hlp4]
        rw [List.append_cons pc.children c2 added4]
      · intro c' hc'
        rcases List.mem_cons.mp hc' with hc'2 | hc'2
        · subst hc'2
          constructor
          · omega
          · omega
        · have := haddb4 c' hc'2
          rw [hnext3] at this
          exact ⟨by omega, this.2⟩
    · intro j cell hj hcell c' hc'
      by_cases hj2 : s2.nextId ≤ j
      · have := hbounds4 j cell (by rw [hnext3]; omega) hcell c' hc'
        exact this
      · have hjp : j ≠ p := by omega
        have h1 : s'.lookup j = (s2.addChildToInternalVector p c2).lookup j :=
          hframe4 j (by rw [hnext3]; omega) hjp
        rw [h1, hlk3 j, if_neg hjp] at hcell
        by_cases hjc2 : j = c2
        · rw [if_pos hjc2, hc2l] at hcell
          injection hcell with hcell2
          rw [← hcell2] at hc'
          have := hbounds2 c2 c2cell (by omega) hc2l c' hc'
          constructor
          · omega
          · omega
        · rw [if_neg hjc2] at hcell
          have := hbounds2 j cell (by omega) hcell c' hc'
          exact ⟨this.1, by omega⟩
termination_by fuel _ _ cs => (fuel, cs.length + 1)

end

theorem reach_lt (s : Store) (hwf : s.WF) (r : Nat) (hr : r < s.nextId) :
    ∀ t, s.reach r t → t < s.nextId := by
  intro t ht
  induction ht with
  | refl => exact hr
  | child j cell c _ hl hc _ => exact (hwf.lookup_child hl hc).1

theorem reach_fresh_of_bounds (s' : Store) (r' bound : Nat)
    (hr : bound ≤ r')
    (hbounds : ∀ j cell, bound ≤ j → s'.lookup j = some cell →
      ∀ c ∈ cell.children, j < c ∧ c < s'.nextId) :
    ∀ t, s'.reach r' t → bound ≤ t := by
  intro t ht
  induction ht with
  | refl => exact hr
  | child j cell c _ hl hc ih =>
    have := hbounds j cell ih hl c hc
    omega

theorem WF_update_keep (s : Store) (hwf : s.WF) (p : Nat)
    (f : NodeCell → NodeCell)
    (hf : ∀ cell, (f cell).children = cell.children ∧
      (f cell).parent = cell.parent) : (s.update p f).WF := by
  have hkeys : (s.update p f).cells.map (fun q => q.1)
      = s.cells.map fun q => q.1 := keys_updateCell s.cells p f
  have hnd : ((s.update p f).cells.map fun q => q.1).Nodup := by
    rw [hkeys]; exact hwf.1
  have hlk := lookup_update s p f
  have hsome : ∀ j, ((s.update p f).lookup j).isSome = (s.lookup j).isSome := by
    intro j
    rw [hlk]
    by_cases hj : j = p
    · rw [if_pos hj]; cases s.lookup j <;> rfl
    · rw [if_neg hj]
  refine ⟨hnd, ?_, ?_, ?_⟩
  · intro q hm
    have : q.1 ∈ (s.update p f).cells.map fun r => r.1 :=
      List.mem_map.mpr ⟨q, hm, rfl⟩
    rw [hkeys] at this
    obtain ⟨⟨n, cell⟩, hmm, he⟩ := List.mem_map.mp this
    have := hwf.2.1 (n, cell) hmm
    simp only at he
    show q.1 < s.nextId
    omega
  · intro q hm c hc
    obtain ⟨n, cell⟩ := q
    have hl : (s.update p f).lookup n = some cell :=
      findCell_eq_some_of_mem _ hnd _ _ hm
    rw [hlk] at hl
    have hold : ∃ oldcell, s.lookup n = some oldcell ∧
        oldcell.children = cell.children := by
      by_cases hn : n = p
      · rw [if_pos hn] at hl
        cases hsc : s.lookup n with
        | none => rw [hsc] at hl; cases hl
        | some oc =>
          rw [hsc] at hl
          injection hl with hl2
          exact ⟨oc, rfl, by rw [← hl2]; exact (hf oc).1.symm⟩
      · rw [if_neg hn] at hl
        exact ⟨cell, hl, rfl⟩
    obtain ⟨oldcell, hoc, hch⟩ := hold
    rw [← hch] at hc
    have := hwf.lookup_child hoc hc
    rw [hsome c]
    exact ⟨this.1, this.2⟩
  · intro q hm r hr
    obtain ⟨n, cell⟩ := q
    have hl : (s.update p f).lookup n = some cell :=
      findCell_eq_some_of_mem _ hnd _ _ hm
    rw [hlk] at hl
    have hold : ∃ oldcell, s.lookup n = some oldcell ∧
        oldcell.parent = cell.parent := by
      by_cases hn : n = p
      · rw [if_pos hn] at hl
        cases hsc : s.lookup n with
        | none => rw [hsc] at hl; cases hl
        | some oc =>
          rw [hsc] at hl
          injection hl with hl2
          exact ⟨oc, rfl, by rw [← hl2]; exact (hf oc).2.symm⟩
      · rw [if_neg hn] at hl
        exact ⟨cell, hl, rfl⟩
    obtain ⟨oldcell, hoc, hpp⟩ := hold
    rw [← hpp] at hr
    exact hwf.lookup_parent hoc hr

theorem INV_update_keep (s : Store) (hwf : s.WF) (hinv : s.INV) (p : Nat)
    (f : NodeCell → NodeCell)
    (hf : ∀ cell, (f cell).children = cell.children ∧
      (f cell).parent = cell.parent) : (s.update p f).INV := by
  have hlk := lookup_update s p f
  have hnd : ((s.update p f).cells.map fun q => q.1).Nodup := by
    have h0 : (s.update p f).cells.map (fun q => q.1)
        = s.cells.map fun q => q.1 := keys_updateCell s.cells p f
    rw [h0]
    exact hwf.1
  have htransfer : ∀ (n : Nat) (cell : NodeCell),
      (s.update p f).lookup n = some cell →
      ∃ oldcell, s.lookup n = some oldcell ∧
        oldcell.children = cell.children ∧
        oldcell.parent = cell.parent := by
    intro n cell hl
    rw [hlk] at hl
    by_cases hn : n = p
    · rw [if_pos hn] at hl
      cases hsc : s.lookup n with
      | none => rw [hsc] at hl; cases hl
      | some oc =>
        rw [hsc] at hl
        injection hl with hl2
        exact ⟨oc, rfl, by rw [← hl2]; exact (hf oc).1.symm,
          by rw [← hl2]; exact (hf oc).2.symm⟩
    · rw [if_neg hn] at hl
      exact ⟨cell, hl, rfl, rfl⟩
  have hback : ∀ (n : Nat) (oldcell : NodeCell),
      s.lookup n = some oldcell →
      ∃ cell, (s.update p f).lookup n = some cell ∧
        oldcell.children = cell.children ∧
        oldcell.parent = cell.parent := by
    intro n oldcell hl
    rw [hlk]
    by_cases hn : n = p
    · rw [if_pos hn, hl]
      exact ⟨f oldcell, rfl, (hf oldcell).1.symm, (hf oldcell).2.symm⟩
    · rw [if_neg hn, hl]
      exact ⟨oldcell, rfl, rfl, rfl⟩
  refine ⟨?_, ?_, ?_⟩
  · intro q hm c hc
    obtain ⟨n, cell⟩ := q
    have hl : (s.update p f).lookup n = some cell :=
      findCell_eq_some_of_mem _ hnd _ _ hm
    obtain ⟨oldcell, hol, hch, _⟩ := htransfer n cell hl
    rw [← hch] at hc
    obtain ⟨ccell, hcl, hcp⟩ := hinv.lookup_child_parent hol hc
    obtain ⟨ccell', hcl', _, hc2⟩ := hback c ccell hcl
    refine ⟨ccell', hcl', ?_⟩
    rw [← hc2]
    exact hcp
  · intro q hm
    obtain ⟨n, cell⟩ := q
    have hl : (s.update p f).lookup n = some cell :=
      findCell_eq_some_of_mem _ hnd _ _ hm
    obtain ⟨oldcell, hol, hch, _⟩ := htransfer n cell hl
    show cell.children.Nodup
    rw [← hch]
    exact hinv.lookup_children_nodup hol
  · intro q hm r hr
    obtain ⟨n, cell⟩ := q
    have hl : (s.update p f).lookup n = some cell :=
      findCell_eq_some_of_mem _ hnd _ _ hm
    obtain ⟨oldcell, hol, _, hpp⟩ := htransfer n cell hl
    rw [← hpp] at hr
    obtain ⟨qcell, hql, hqm⟩ := hinv.lookup_parent_mem hol hr
    obtain ⟨qcell', hql', hq1, _⟩ := hback r qcell hql
    refine ⟨qcell', hql', ?_⟩
    rw [← hq1]
    exact hqm

theorem WF_addChild (s : Store) (hwf : s.WF) (p c : Nat)
    (fieldName : String) (pcell ccell : NodeCell)
    (hpl : s.lookup p = some pcell) (hcl : s.lookup c = some ccell)
    (hne : p ≠ c) : (s.addChild p c fieldName).WF :=
  WF_update_keep _
    (WF_addChildToInternalVector s hwf p c pcell ccell hpl hcl hne) p _
    fun _ => ⟨rfl, rfl⟩

theorem INV_addChild (s : Store) (hwf : s.WF) (hinv : s.INV) (p c : Nat)
    (fieldName : String) (pcell ccell : NodeCell)
    (hpl : s.lookup p = some pcell) (hcl : s.lookup c = some ccell)
    (hcp : ccell.parent = none) (hne : p ≠ c) :
    (s.addChild p c fieldName).INV :=
  INV_update_keep _
    (WF_addChildToInternalVector s hwf p c pcell ccell hpl hcl hne)
    (INV_addChildToInternalVector s hwf hinv p c pcell ccell hpl hcl hcp hne)
    p _ fun _ => ⟨rfl, rfl⟩

theorem INV_exactly_once (s : Store) (hinv : s.INV) (p : Nat)
    (pcell : NodeCell) (hpl : s.lookup p = some pcell) (c : Nat)
    (hc : c ∈ pcell.children) :
    pcell.children.count c = 1 ∧
    (∃ ccell, s.lookup c = some ccell ∧ ccell.parent = some p) ∧
    (∀ q qcell, s.lookup q = some qcell → c ∈ qcell.children → q = p) := by
  refine ⟨List.count_eq_one_of_mem (hinv.lookup_children_nodup hpl) hc,
    hinv.lookup_child_parent hpl hc, ?_⟩
  intro q qcell hql hqc
  obtain ⟨ccell, hcl, hcp⟩ := hinv.lookup_child_parent hpl hc
  obtain ⟨ccell2, hcl2, hcp2⟩ := hinv.lookup_child_parent hql hqc
  rw [hcl] at hcl2
  injection hcl2 with he
  subst he
  rw [hcp] at hcp2
  injection hcp2 with he2
  exact he2.symm

theorem reach_nonroot_has_parent (s : Store) (hinv : s.INV) (r : Nat) :
    ∀ t, s.reach r t → t = r ∨ ∃ tcell q, s.lookup t = some tcell ∧
      tcell.parent = some q := by
  intro t ht
  induction ht with
  | refl => exact Or.inl rfl
  | child j cell c _ hl hc _ =>
    obtain ⟨ccell, hcl, hcp⟩ := hinv.lookup_child_parent hl hc
    exact Or.inr ⟨ccell, j, hcl, hcp⟩

theorem isRoot_of_parent_none (s : Store) (r : Nat) (rcell : NodeCell)
    (hl : s.lookup r = some rcell) (hp : rcell.parent = none) :
    s.isRoot r = some true := by
  simp [Store.isRoot, hl, hp]

/-- A sample store with two parentless nodes: a path node at id 0 and
a boolean leaf at id 1. -/
def sampleStore : Store :=
  ⟨[(0, ⟨.path [], none, []⟩), (1, ⟨.booleanConstant true, none, []⟩)], 2⟩

theorem sampleStore_WF : sampleStore.WF := by
  unfold Store.WF
  decide

theorem sampleStore_INV : sampleStore.INV := by
  refine ⟨?_, ?_, ?_⟩
  · intro p hp c hc
    fin_cases hp <;> simp at hc
  · intro p hp
    fin_cases hp <;> simp
  · intro p hp q hq
    fin_cases hp <;> simp at hq

/-- A sample store with a single boolean root node at id 0. -/
def sampleLeafStore : Store := ⟨[(0, ⟨.booleanConstant true, none, []⟩)], 1⟩

theorem sampleLeafStore_WF : sampleLeafStore.WF := by
  unfold Store.WF
  decide

theorem sampleLeafStore_INV : sampleLeafStore.INV := by
  refine ⟨?_, ?_, ?_⟩
  · intro p hp c hc
    fin_cases hp
    simp at hc
  · intro p hp
    fin_cases hp
    simp
  · intro p hp q hq
    fin_cases hp
    simp at hq

theorem sampleLeafStore_clone :
    Store.cloneNode 1 sampleLeafStore 0
      = some (⟨[(1, ⟨.booleanConstant true, none, []⟩),
          (0, ⟨.booleanConstant true, none, []⟩)], 2⟩, 1) := by
  simp [Store.cloneNode, Store.cloneChildren, Store.lookup, findCell,
    List.find?, sampleLeafStore]

/-- C9: the parent/child invariant — every stored child's parent
pointer designates the node holding it, child vectors are
duplicate-free, and every parented node occurs among its parent's
children — holds after each construction operation (leaf constructor,
child-vector constructor, `addChildToInternalVector`, `addChild`) and
after `clone`, given it held before and the operation's C++-level
preconditions (unique ownership: adopted children are existing roots,
passed at most once); under the invariant every child occurs exactly
once in its unique parent's child vector, and within a tree the root
is the unique parentless node (`isRoot` true, every other reachable
node has a parent). -/
theorem parent_child_invariant_preserved :
    (∀ (s : Store) (d : NodeData), s.WF → s.INV →
      (s.constructLeaf d).1.WF ∧ (s.constructLeaf d).1.INV) ∧
    (∀ (s : Store) (d : NodeData) (cids : List Nat), s.WF → s.INV →
      cids.Nodup →
      (∀ c ∈ cids, c < s.nextId ∧ ∃ ccell, s.lookup c = some ccell ∧
        ccell.parent = none) →
      (s.constructWithChildren d cids).1.WF ∧
        (s.constructWithChildren d cids).1.INV) ∧
    (∀ (s : Store) (p c : Nat) (pcell ccell : NodeCell), s.WF → s.INV →
      s.lookup p = some pcell → s.lookup c = some ccell →
      ccell.parent = none → p ≠ c →
      (s.addChildToInternalVector p c).WF ∧
        (s.addChildToInternalVector p c).INV) ∧
    (∀ (s : Store) (p c : Nat) (fieldName : String)
      (pcell ccell : NodeCell), s.WF → s.INV →
      s.lookup p = some pcell → s.lookup c = some ccell →
      ccell.parent = none → p ≠ c →
      (s.addChild p c fieldName).WF ∧ (s.addChild p c fieldName).INV) ∧
    (∀ (fuel : Nat) (s : Store) (i : Nat) (s' : Store) (i' : Nat),
      s.WF → s.INV → Store.cloneNode fuel s i = some (s', i') →
      s'.WF ∧ s'.INV) ∧
    (∀ (s : Store), s.INV → ∀ (p : Nat) (pcell : NodeCell),
      s.lookup p = some pcell → ∀ c ∈ pcell.children,
        pcell.children.count c = 1 ∧
        (∃ ccell, s.lookup c = some ccell ∧ ccell.parent = some p) ∧
        ∀ (q : Nat) (qcell : NodeCell), s.lookup q = some qcell →
          c ∈ qcell.children → q = p) ∧
    (∀ (s : Store) (r : Nat) (rcell : NodeCell), s.INV →
      s.lookup r = some rcell → rcell.parent = none →
      s.isRoot r = some true ∧
      ∀ t, s.reach r t → t = r ∨ ∃ tcell q, s.lookup t = some tcell ∧
        tcell.parent = some q) := by
  refine ⟨?_, ?_, ?_, ?_, ?_, ?_, ?_⟩
  · intro s d hwf hinv
    rw [constructLeaf_eq]
    exact ⟨WF_constructWithChildren s hwf d []
        (fun c hc => absurd hc (List.not_mem_nil c)),
      INV_constructWithChildren s hwf hinv d [] List.nodup_nil
        (fun c hc => absurd hc (List.not_mem_nil c))⟩
  · intro s d cids hwf hinv hnd hcs
    refine ⟨WF_constructWithChildren s hwf d cids ?_,
      INV_constructWithChildren s hwf hinv d cids hnd hcs⟩
    intro c hc
    obtain ⟨hlt, ccell, hcl, _⟩ := hcs c hc
    exact ⟨hlt, by rw [hcl]; rfl⟩
  · intro s p c pcell ccell hwf hinv hpl hcl hcp hne
    exact ⟨WF_addChildToInternalVector s hwf p c pcell ccell hpl hcl hne,
      INV_addChildToInternalVector s hwf hinv p c pcell ccell hpl hcl
        hcp hne⟩
  · intro s p c fieldName pcell ccell hwf hinv hpl hcl hcp hne
    exact ⟨WF_addChild s hwf p c fieldName pcell ccell hpl hcl hne,
      INV_addChild s hwf hinv p c fieldName pcell ccell hpl hcl hcp hne⟩
  · intro fuel s i s' i' hwf hinv h
    obtain ⟨_, _, _, _, _, hwf', hinv'⟩ :=
      cloneNode_post fuel s i s' i' hwf hinv h
    exact ⟨hwf', hinv'⟩
  · intro s hinv p pcell hpl c hc
    exact INV_exactly_once s hinv p pcell hpl c hc
  · intro s r rcell hinv hl hp
    exact ⟨isRoot_of_parent_none s r rcell hl hp,
      reach_nonroot_has_parent s hinv r⟩

/-- Witness for C9: adopting the boolean leaf into the path node of a
concrete two-node store preserves well-formedness and the parent/child
invariant. -/
theorem parent_child_invariant_preserved_witness :
    (sampleStore.addChildToInternalVector 0 1).WF ∧
      (sampleStore.addChildToInternalVector 0 1).INV :=
  parent_child_invariant_preserved.2.2.1 sampleStore 0 1
    ⟨.path [], none, []⟩ ⟨.booleanConstant true, none, []⟩
    sampleStore_WF sampleStore_INV rfl rfl rfl (by decide)

/-- C10: the root of any successful `clone` has a null parent —
`isRoot` is true on it even when the source node sat inside a larger
tree — no node of the resulting store lists it as a child, and a
parent link on it is established exactly by a later
`addChildToInternalVector` adoption. -/
theorem clone_root_has_no_parent (fuel : Nat) (s : Store) (i : Nat)
    (s' : Store) (i' : Nat) (hwf : s.WF) (hinv : s.INV)
    (h : Store.cloneNode fuel s i = some (s', i')) :
    (∃ cell, s'.lookup i' = some cell ∧ cell.parent = none) ∧
    s'.isRoot i' = some true ∧
    (∀ p pcell, s'.lookup p = some pcell → i' ∉ pcell.children) ∧
    (∀ p, p ≠ i' → (s'.addChildToInternalVector p i').lookup i'
      = (s'.lookup i').map fun cell => { cell with parent := some p }) := by
  obtain ⟨hi', hlt, hframe, ⟨icell, cell, hli, hl', hdata, hparent⟩,
    hbounds, hwf', hinv'⟩ := cloneNode_post fuel s i s' i' hwf hinv h
  subst hi'
  refine ⟨⟨cell, hl', hparent⟩,
    isRoot_of_parent_none s' _ cell hl' hparent, ?_, ?_⟩
  · intro p pcell hpl hmem
    by_cases hp : p < s.nextId
    · rw [hframe p hp] at hpl
      have := hwf.lookup_child hpl hmem
      omega
    · have := hbounds p pcell (by omega) hpl _ hmem
      omega
  · intro p hp
    exact lookup_addChildToInternalVector_child s' p _
      fun he => hp he.symm

/-- Witness for C10 on cloning the single-node sample store. -/
theorem clone_root_has_no_parent_witness :
    (∃ cell, (Store.mk [(1, ⟨.booleanConstant true, none, []⟩),
        (0, ⟨.booleanConstant true, none, []⟩)] 2).lookup 1 = some cell ∧
      cell.parent = none) ∧
    (Store.mk [(1, ⟨.booleanConstant true, none, []⟩),
        (0, ⟨.booleanConstant true, none, []⟩)] 2).isRoot 1 = some true ∧
    (∀ p pcell, (Store.mk [(1, ⟨.booleanConstant true, none, []⟩),
        (0, ⟨.booleanConstant true, none, []⟩)] 2).lookup p = some pcell →
      1 ∉ pcell.children) ∧
    (∀ p, p ≠ 1 →
      ((Store.mk [(1, ⟨.booleanConstant true, none, []⟩),
          (0, ⟨.booleanConstant true, none, []⟩)] 2).addChildToInternalVector
            p 1).lookup 1
        = ((Store.mk [(1, ⟨.booleanConstant true, none, []⟩),
            (0, ⟨.booleanConstant true, none, []⟩)] 2).lookup 1).map
            fun cell => { cell with parent := some p }) :=
  clone_root_has_no_parent 1 sampleLeafStore 0 _ 1
    sampleLeafStore_WF sampleLeafStore_INV sampleLeafStore_clone

/-- C4: clone independence.  A successful `clone` leaves every cell of
the original store untouched; the clone occupies only fresh ids,
disjoint from the original tree's ids; and the one mutating operation
of the interface (`addChildToInternalVector`, which `addChild` wraps),
applied at any node of the clone with a fresh child, leaves every cell
of the original tree unchanged — and vice versa.  Reads
(`children()`, `parent()`, `isRoot()`, data accessors) all factor
through `lookup` of cells of the tree, so unchanged cells mean
unchanged reads.  Backing buffers are immutable byte values carried
inside `NodeData`, and no operation of the interface mutates them, so
the buffer sharing of match-expression clones is unobservable. -/
theorem clone_independence (fuel : Nat) (s : Store) (r : Nat) (s' : Store)
    (r' : Nat) (hwf : s.WF) (hinv : s.INV)
    (h : Store.cloneNode fuel s r = some (s', r')) :
    (∀ j, j < s.nextId → s'.lookup j = s.lookup j) ∧
    (∀ t, s.reach r t → t < s.nextId) ∧
    (∀ t', s'.reach r' t' → s.nextId ≤ t' ∧ t' < s'.nextId) ∧
    (∀ p c, s'.reach r' p → s'.nextId ≤ c → ∀ t, s.reach r t →
      (s'.addChildToInternalVector p c).lookup t = s'.lookup t) ∧
    (∀ p c, s.reach r p → s'.nextId ≤ c → ∀ t', s'.reach r' t' →
      (s'.addChildToInternalVector p c).lookup t' = s'.lookup t') := by
  obtain ⟨hr', hlt, hframe, ⟨icell, cell, hli, hl', hdata, hparent⟩,
    hbounds, hwf', hinv'⟩ := cloneNode_post fuel s r s' r' hwf hinv h
  have hrlt : r < s.nextId := hwf.lookup_lt hli
  have horig : ∀ t, s.reach r t → t < s.nextId :=
    reach_lt s hwf r hrlt
  have hfresh : ∀ t', s'.reach r' t' → s.nextId ≤ t' :=
    reach_fresh_of_bounds s' r' s.nextId (by omega) hbounds
  have hfresh2 : ∀ t', s'.reach r' t' → t' < s'.nextId := by
    have hr'lt : r' < s'.nextId := by omega
    exact reach_lt s' hwf' r' hr'lt
  refine ⟨hframe, horig, fun t' ht' => ⟨hfresh t' ht', hfresh2 t' ht'⟩,
    ?_, ?_⟩
  · intro p c hp hc t ht
    have h1 := hfresh p hp
    have h2 := horig t ht
    exact lookup_addChildToInternalVector_other s' p c t
      (by omega) (by omega)
  · intro p c hp hc t' ht'
    have h1 := horig p hp
    have h2 := hfresh t' ht'
    have h3 := hfresh2 t' ht'
    exact lookup_addChildToInternalVector_other s' p c t'
      (by omega) (by omega)

/-- Witness for C4 on cloning the single-node sample store. -/
theorem clone_independence_witness :
    (∀ j, j < sampleLeafStore.nextId →
      (Store.mk [(1, ⟨.booleanConstant true, none, []⟩),
        (0, ⟨.booleanConstant true, none, []⟩)] 2).lookup j
        = sampleLeafStore.lookup j) ∧
    (∀ t, sampleLeafStore.reach 0 t → t < sampleLeafStore.nextId) ∧
    (∀ t', (Store.mk [(1, ⟨.booleanConstant true, none, []⟩),
        (0, ⟨.booleanConstant true, none, []⟩)] 2).reach 1 t' →
      sampleLeafStore.nextId ≤ t' ∧ t' < (Store.mk
        [(1, ⟨.booleanConstant true, none, []⟩),
          (0, ⟨.booleanConstant true, none, []⟩)] 2).nextId) ∧
    (∀ p c, (Store.mk [(1, ⟨.booleanConstant true, none, []⟩),
        (0, ⟨.booleanConstant true, none, []⟩)] 2).reach 1 p →
      (Store.mk [(1, ⟨.booleanConstant true, none, []⟩),
        (0, ⟨.booleanConstant true, none, []⟩)] 2).nextId ≤ c →
      ∀ t, sampleLeafStore.reach 0 t →
        ((Store.mk [(1, ⟨.booleanConstant true, none, []⟩),
          (0, ⟨.booleanConstant true, none, []⟩)] 2).addChildToInternalVector
            p c).lookup t
          = (Store.mk [(1, ⟨.booleanConstant true, none, []⟩),
            (0, ⟨.booleanConstant true, none, []⟩)] 2).lookup t) ∧
    (∀ p c, sampleLeafStore.reach 0 p →
      (Store.mk [(1, ⟨.booleanConstant true, none, []⟩),
        (0, ⟨.booleanConstant true, none, []⟩)] 2).nextId ≤ c →
      ∀ t', (Store.mk [(1, ⟨.booleanConstant true, none, []⟩),
        (0, ⟨.booleanConstant true, none, []⟩)] 2).reach 1 t' →
        ((Store.mk [(1, ⟨.booleanConstant true, none, []⟩),
          (0, ⟨.booleanConstant true, none, []⟩)] 2).addChildToInternalVector
            p c).lookup t'
          = (Store.mk [(1, ⟨.booleanConstant true, none, []⟩),
            (0, ⟨.booleanConstant true, none, []⟩)] 2).lookup t') :=
  clone_independence 1 sampleLeafStore 0 _ 1
    sampleLeafStore_WF sampleLeafStore_INV sampleLeafStore_clone

end ProjectionAST

namespace ProjectionAST

/-! ## Claim C1: path-node constructor invariant and `getChild` -/

/-- The specification-level description of `getChild`: the child at
the first index whose field name equals the probe, if any. -/
def firstMatchLookup (fieldName : String) (fieldNames : List String)
    (children : List ASTNode) : Option ASTNode :=
  (fieldNames.findIdx? (fun f => f = fieldName)).bind fun i => children[i]?

theorem getChildScan_eq_firstMatchLookup (fieldName : String) :
    ∀ (fs : List String) (cs : List ASTNode),
      getChildScan fieldName fs cs = firstMatchLookup fieldName fs cs := by
  intro fs
  induction fs with
  | nil => intro cs; simp [getChildScan, firstMatchLookup]
  | cons f fs ih =>
    intro cs
    unfold getChildScan firstMatchLookup
    rw [List.findIdx?_cons]
    by_cases h : f = fieldName
    · rw [if_pos h, if_pos (by simp [h])]
      cases cs <;> simp
    · rw [if_neg h, if_neg (by simp [h]), List.findIdx?_succ, ih]
      unfold firstMatchLookup
      cases hfind : List.findIdx? (fun x => decide (x = fieldName)) fs 0 with
      | none => simp [hfind]
      | some i => simp [hfind, List.getElem?_drop, Nat.add_comm]

/-- C1: constructing a `ProjectionPathASTNode` with field-name and
child lists of different lengths aborts (`invariant` failure, modelled
as `none`); on every constructed path node, `getChild(name)` returns
the child at the first index whose field name equals `name`, and
`none` when no field name matches (duplicates tolerated, first match
wins). -/
theorem projectionPathASTNode_construct_getChild
    (cs : List ASTNode) (fs : List String) :
    (cs.length ≠ fs.length → ProjectionPathASTNode.construct cs fs = none) ∧
    (∀ n, ProjectionPathASTNode.construct cs fs = some n →
      ∀ name, n.getChild name =
        (fs.findIdx? (fun f => f = name)).bind fun i => cs[i]?) := by
  constructor
  · intro hne
    simp [ProjectionPathASTNode.construct, hne]
  · intro n hn name
    unfold ProjectionPathASTNode.construct at hn
    split at hn
    · cases hn
      simpa [ASTNode.getChild, firstMatchLookup] using
        getChildScan_eq_firstMatchLookup name fs cs
    · cases hn

/-- Witness for C1 on the spec's concrete scenario: field names
`["a", "b"]` with a boolean-constant child and a slice child; the
lookup of `"b"` goes through the first-match characterization. -/
theorem projectionPathASTNode_construct_getChild_witness :
    (ASTNode.path ["a", "b"]
        [ASTNode.booleanConstant true, ASTNode.slice (some 2) 5]).getChild "b"
      = ((["a", "b"].findIdx? (fun f => f = "b")).bind fun i =>
          [ASTNode.booleanConstant true, ASTNode.slice (some 2) 5][i]?) :=
  (projectionPathASTNode_construct_getChild
    [ASTNode.booleanConstant true, ASTNode.slice (some 2) 5] ["a", "b"]).2
    (ASTNode.path ["a", "b"]
      [ASTNode.booleanConstant true, ASTNode.slice (some 2) 5]) rfl "b"

/-! ## Claim C2: positional/elemMatch constructor invariant -/

/-- C2: constructing a `ProjectionPositionalASTNode` or a
`ProjectionElemMatchASTNode` from a null child aborts (`invariant(child)`),
and every successfully constructed node of these kinds has exactly one
child, which is a `MatchExpressionASTNode`.  (Construction with more
than one child or a non-match-expression child is rejected statically:
the constructor parameter is a single
`std::unique_ptr<MatchExpressionASTNode>`, which the model's argument
type mirrors.) -/
theorem positional_elemMatch_construct_invariant :
    (ProjectionPositionalASTNode.construct none = none) ∧
    (ProjectionElemMatchASTNode.construct none = none) ∧
    (∀ co n, ProjectionPositionalASTNode.construct co = some n →
      ∃ m, co = some m ∧ n.children = [ASTNode.matchExpression m]) ∧
    (∀ co n, ProjectionElemMatchASTNode.construct co = some n →
      ∃ m, co = some m ∧ n.children = [ASTNode.matchExpression m]) := by
  refine ⟨rfl, rfl, ?_, ?_⟩
  · intro co n hn
    cases co with
    | none => cases hn
    | some c =>
      cases hn
      exact ⟨c, rfl, rfl⟩
  · intro co n hn
    cases co with
    | none => cases hn
    | some c =>
      cases hn
      exact ⟨c, rfl, rfl⟩

/-- Witness for C2: a concrete positional node built from a non-null
match-expression child has that child, alone, in its child vector. -/
theorem positional_elemMatch_construct_invariant_witness :
    ∃ m, some (⟨[], .pred 0 0⟩ : MatchExpressionASTNode) = some m ∧
      (ASTNode.positional ⟨[], .pred 0 0⟩).children
        = [ASTNode.matchExpression m] :=
  positional_elemMatch_construct_invariant.2.2.1
    (some ⟨[], .pred 0 0⟩) (ASTNode.positional ⟨[], .pred 0 0⟩) rfl

end ProjectionAST
